import Mathlib

/-!
Verification development for the RadarPulse multi-site pulse-detection
network (`src/models/network.py`, `src/models/network_joint.py`,
`src/data/dataset.py`, `src/config/config_classes.py`).

The development has two layers:

* a **shape model**: every tensor operation of the computation graph is
  modelled by its effect on tensor shapes (lists of natural-number
  extents), returning `none` exactly when the underlying runtime
  operation would raise (rank mismatch, channel mismatch, kernel larger
  than padded input, concatenation extent mismatch, ...);

* a **value model**: tensors are total functions from natural-number
  indices to real numbers, and every layer of the network is translated
  into the corresponding arithmetic on those functions (convolutions as
  double sums with zero padding, batch normalisation in inference mode,
  the LSTM recurrence, multi-head attention with softmax, the stable
  top-k reduction, the final sigmoid).

All normalisation layers are modelled in inference mode (running
statistics), and dropout is the identity accordingly.
-/

namespace RadarPulse

/-! ## Shape model

A shape is the list of extents of a tensor, e.g. `[n, c, t]` for a
batch of `n` signals with `c` channels and `t` timepoints. -/

abbrev Shp := List ℕ

/-- Shape of `nn.Conv1d(inC, outC, kern, padding=pad)`: requires the channel
extent to match `inC` and the padded length to be at least `kern`
(otherwise the runtime raises), and maps length `l` to `l + 2*pad - kern + 1`. -/
def conv1dS (inC outC kern pad : ℕ) : Shp → Option Shp
  | [n, c, l] =>
    if c = inC ∧ kern ≤ l + 2 * pad then some [n, outC, l + 2 * pad + 1 - kern] else none
  | _ => none

/-- Shape of `nn.BatchNorm1d(ch)` on a `(N, C, L)` tensor: channel check only. -/
def bn1dS (ch : ℕ) : Shp → Option Shp
  | [n, c, l] => if c = ch then some [n, c, l] else none
  | _ => none

/-- Shape of `nn.MaxPool1d(2)`: halves the length (floor); the runtime
rejects inputs shorter than the window. -/
def pool2S : Shp → Option Shp
  | [n, c, l] => if 2 ≤ l then some [n, c, l / 2] else none
  | _ => none

/-- Shape of `EncoderBlock.forward` (two same-padding convolutions with
normalisation and ReLU, then a window-2 max pool); returns the pooled
shape together with the pre-pool feature shape kept as skip connection. -/
def encBlockS (inC outC kern : ℕ) (s : Shp) : Option (Shp × Shp) := do
  let a ← conv1dS inC outC kern (kern / 2) s
  let a ← bn1dS outC a
  let a ← conv1dS outC outC kern (kern / 2) a
  let f ← bn1dS outC a
  let p ← pool2S f
  pure (p, f)

/-- Shapes of the encoder loop of `PulseDetectionNet.forward`: runs the
encoder blocks given by the channel schedule in order, collecting the
skip-connection shapes in creation order. -/
def encLoopS (kern : ℕ) : ℕ → List ℕ → Shp → Option (Shp × List Shp)
  | _, [], s => some (s, [])
  | cin, c :: cs, s => do
    let (p, f) ← encBlockS cin c kern s
    let (out, skips) ← encLoopS kern c cs p
    pure (out, f :: skips)

/-- Shape of `nn.Conv2d(inC, outC, (kh, kw), padding=(ph, pw))`. -/
def conv2dS (inC outC kh kw ph pw : ℕ) : Shp → Option Shp
  | [n, c, h, w] =>
    if c = inC ∧ kh ≤ h + 2 * ph ∧ kw ≤ w + 2 * pw then
      some [n, outC, h + 2 * ph + 1 - kh, w + 2 * pw + 1 - kw]
    else none
  | _ => none

/-- Shape of `nn.BatchNorm2d(ch)`. -/
def bn2dS (ch : ℕ) : Shp → Option Shp
  | [n, c, h, w] => if c = ch then some [n, c, h, w] else none
  | _ => none

/-- Shape of `torch.topk(x, k, dim=2)[0]` on a rank-4 tensor: requires
`k` at most the extent of dimension 2 and replaces that extent by `k`. -/
def topkDim2S (k : ℕ) : Shp → Option Shp
  | [n, c, h, w] => if k ≤ h then some [n, c, k, w] else none
  | _ => none

/-- Shape of `SpatialReductionPreprocessing.forward` (unsqueeze, two
5×7 same-padding conv/norm/ReLU stages at 16 feature maps, top-k along
the spatial axis, 1×1 channel adjustment, squeeze). -/
def sprS (outCh : ℕ) : Shp → Option Shp
  | [n, sp, t] => do
    let a ← conv2dS 1 16 5 7 2 3 [n, 1, sp, t]
    let a ← bn2dS 16 a
    let a ← conv2dS 16 16 5 7 2 3 a
    let a ← bn2dS 16 a
    let a ← topkDim2S outCh a
    let a ← conv2dS 16 1 1 1 0 0 a
    match a with
    | [n2, c2, h2, w2] => if c2 = 1 then some [n2, h2, w2] else some [n2, c2, h2, w2]
    | _ => none
  | _ => none

/-- Shape of the bottleneck LSTM as used inside `PulseDetectionNet.forward`
(transpose, bidirectional LSTM with hidden size `hid`, transpose back):
the channel extent must match the LSTM input size and becomes `2*hid`. -/
def lstmS (inSize hid : ℕ) : Shp → Option Shp
  | [n, c, l] => if c = inSize then some [n, 2 * hid, l] else none
  | _ => none

/-- Shape of `nn.ConvTranspose1d(inC, inC, kernel_size=2, stride=2)`:
doubles the length; channel extent must match `inC`. -/
def tconv2S (inC : ℕ) : Shp → Option Shp
  | [n, c, l] => if c = inC ∧ 1 ≤ l then some [n, inC, 2 * l] else none
  | _ => none

/-- Shape of `torch.cat([a, b], dim=1)` on rank-3 tensors: all extents
except dimension 1 must agree. -/
def catDim1S : Shp → Shp → Option Shp
  | [n, c, l], [n2, c2, l2] => if n = n2 ∧ l = l2 then some [n, c + c2, l] else none
  | _, _ => none

/-- Shape of `DecoderBlock.forward`: transposed convolution doubling the
length, concatenation with the skip tensor along channels, then two
same-padding convolutions with normalisation and ReLU down to `outC`. -/
def decBlockS (inC outC kern : ℕ) (x skip : Shp) : Option Shp := do
  let u ← tconv2S inC x
  let a ← catDim1S u skip
  let a ← conv1dS (inC * 2) inC kern (kern / 2) a
  let a ← bn1dS inC a
  let a ← conv1dS inC outC kern (kern / 2) a
  bn1dS outC a

/-- Shapes of the decoder loop of `PulseDetectionNet.forward`: the source
iterates `zip(self.decoder_blocks, skip_connections)`, so the loop stops
at the shorter of the two lists. -/
def decLoopS (kern : ℕ) : List (ℕ × ℕ) → Shp → List Shp → Option Shp
  | [], x, _ => some x
  | _ :: _, x, [] => some x
  | (i, o) :: ds, x, sk :: sks => do
    let y ← decBlockS i o kern x sk
    decLoopS kern ds y sks

/-- Shape of the `final` head of `PulseDetectionNet` (3-wide conv,
normalisation, ReLU, 1-wide conv to one channel, sigmoid). -/
def finalS : Shp → Option Shp := fun s => do
  let a ← conv1dS 32 32 3 1 s
  let a ← bn1dS 32 a
  conv1dS 32 1 1 0 a

/-- Shape of `x.transpose(1, 2)` on a rank-3 tensor. -/
def transpose12S : Shp → Option Shp
  | [a, b, c] => some [a, c, b]
  | _ => none

/-- Configuration of one `PulseDetectionNet`, mirroring the constructor
arguments of `src/models/network.py` (dropout is omitted: it has no
effect on shapes and is the identity in inference mode). -/
structure PNetCfg where
  inChannels : ℕ
  seqLen : ℕ
  reduceChannels : ℕ := 8
  hiddenChannels : List ℕ := [64, 128, 256]
  kernelSize : ℕ := 5
  useLstm : Bool := true
  lstmHiddenSize : ℕ := 128
  lstmNumLayers : ℕ := 2
deriving Repr, DecidableEq, Inhabited

/-- Channel pairs given to the decoder blocks, mirroring the constructor:
`rev = hidden_channels[::-1] + [32]`, and block `i` gets
`(current_channels, rev[i+1])` where `current_channels` starts at the
bottleneck width and is then the previous block's output. -/
def chainPairs : ℕ → List ℕ → List (ℕ × ℕ)
  | _, [] => []
  | c, d :: ds => (c, d) :: chainPairs d ds

/-- Channel width entering the decoder stack: `2*lstm_hidden_size` when the
LSTM is enabled, else the last encoder width (or the reduced width when
the schedule is empty). -/
def bottleneckWidth (cfg : PNetCfg) : ℕ :=
  if cfg.useLstm then 2 * cfg.lstmHiddenSize
  else cfg.hiddenChannels.getLastD cfg.reduceChannels

/-- Decoder channel schedule of `PulseDetectionNet.__init__`. -/
def decoderPairsC (cfg : PNetCfg) : List (ℕ × ℕ) :=
  chainPairs (bottleneckWidth cfg) ((cfg.hiddenChannels.reverse ++ [32]).drop 1)

/-- Construction-time model of `PulseDetectionNet.__init__`: the only way
construction itself can fail is the `hidden_channels[-1]` lookup used to
size the LSTM (an index error on an empty schedule); in particular no
property of `seq_len` is checked at construction. -/
def pnetConstructS (cfg : PNetCfg) : Option PNetCfg :=
  if cfg.useLstm ∧ cfg.hiddenChannels = [] then none else some cfg

/-- Shape of `PulseDetectionNet.forward`: transpose, spatial reduction,
encoder loop, optional bottleneck LSTM, decoder loop over the reversed
skip list, final head, transpose. -/
def pnetForwardS (cfg : PNetCfg) : Shp → Option Shp
  | [n, l, c] => do
    let x ← sprS cfg.reduceChannels [n, c, l]
    let (x, skips) ← encLoopS cfg.kernelSize cfg.reduceChannels cfg.hiddenChannels x
    let x ← if cfg.useLstm then
        lstmS (cfg.hiddenChannels.getLastD 0) cfg.lstmHiddenSize x
      else some x
    let x ← decLoopS cfg.kernelSize (decoderPairsC cfg) x skips.reverse
    let x ← finalS x
    transpose12S x
  | _ => none

/-! ### Shape model of the joint network (`network_joint.py`) -/

/-- Shape of `torch.stack(l, dim=1)`: requires a nonempty list of equal
shapes; inserts the list length as a new dimension 1. -/
def stackDim1S : List Shp → Option Shp
  | [] => none
  | s :: rest =>
    if rest.all (· = s) then
      match s with
      | [n, a, b] => some [n, rest.length + 1, a, b]
      | _ => none
    else none

/-- Shape of `t.transpose(1, 2)` on a rank-4 tensor. -/
def transpose12S4 : Shp → Option Shp
  | [a, b, c, d] => some [a, c, b, d]
  | _ => none

/-- Shape of `t.reshape(target)`: element counts must agree. -/
def reshapeS (target : List ℕ) (s : Shp) : Option Shp :=
  if s.prod = target.prod then some target else none

/-- Shape of `nn.MultiheadAttention(E, heads)` applied with query = key =
value: the embedding extent must equal `E`; the output has the query's
shape. -/
def mhaS (e : ℕ) : Shp → Option Shp
  | [b, s, c] => if c = e then some [b, s, c] else none
  | _ => none

/-- Shape of an elementwise residual addition: both shapes must agree. -/
def addResidS (a b : Shp) : Option Shp := if a = b then some a else none

/-- Shape of `nn.LayerNorm(e)`: the last extent must equal `e`. -/
def lnS (e : ℕ) : Shp → Option Shp
  | [b, s, c] => if c = e then some [b, s, c] else none
  | _ => none

/-- Shape of `CrossSiteTemporalAttention.forward`: stack the per-site
latents, run site-mixing attention per timepoint, then temporal
attention per site, and split back into a list of per-site tensors. -/
def cstaS (hidden : ℕ) (inputs : List Shp) : Option (List Shp) := do
  let st ← stackDim1S inputs
  match st with
  | [n, s, l, c] => do
    let tr ← transpose12S4 [n, s, l, c]
    let r ← reshapeS [n * l, s, c] tr
    let a ← mhaS hidden r
    let a ← addResidS a r
    let a ← lnS hidden a
    let b ← reshapeS [n, l, s, c] a
    let b ← transpose12S4 b
    let t ← reshapeS [n * s, l, c] b
    let ta ← mhaS hidden t
    let ta ← addResidS ta t
    let ta ← lnS hidden ta
    let _ ← reshapeS [n, s, l, c] ta
    pure ((List.range s).map fun _ => [n, l, c])
  | _ => none

/-- Shape of `x.mean(dim=1)` on a rank-3 tensor. -/
def meanDim1S : Shp → Option Shp
  | [n, _l, c] => some [n, c]
  | _ => none

/-- Shape of `nn.Linear(inF, outF)` on a rank-2 tensor. -/
def linearS (inF outF : ℕ) : Shp → Option Shp
  | [n, f] => if f = inF then some [n, outF] else none
  | _ => none

/-- Shape of `nn.BatchNorm1d(ch)` on a rank-2 `(N, F)` tensor. -/
def bnFeatS (ch : ℕ) : Shp → Option Shp
  | [n, f] => if f = ch then some [n, f] else none
  | _ => none

/-- Shape of `PTTRegressionHead.forward` (linear, ReLU, batch norm,
linear to one unit). -/
def pttHeadS (inF hidF : ℕ) (s : Shp) : Option Shp := do
  let a ← linearS inF hidF s
  let a ← bnFeatS hidF a
  linearS hidF 1 a

/-- Shape of `torch.cat(l, dim=1)` on a nonempty list of rank-2 tensors. -/
def catAllDim1S : List Shp → Option Shp
  | [] => none
  | [s] =>
    match s with
    | [n, f] => some [n, f]
    | _ => none
  | s :: rest => do
    let a ←
      match s with
      | [n, f] => some [n, f]
      | _ => none
    let b ← catAllDim1S rest
    match a, b with
    | [n, f], [n2, f2] => if n = n2 then some [n, f + f2] else none
    | _, _ => none

/-- Shape of `torch.cat([a, b], dim=1)` on rank-2 tensors. -/
def catFeatS : Shp → Shp → Option Shp
  | [n, f], [n2, f2] => if n = n2 then some [n, f + f2] else none
  | _, _ => none

/-- Shape of `torch.stack(l, dim=1)` on a nonempty list of equal rank-3
shapes. -/
def stackDim1R3S : List Shp → Option Shp
  | [] => none
  | s :: rest =>
    if rest.all (· = s) then
      match s with
      | [n, a, b] => some [n, rest.length + 1, a, b]
      | _ => none
    else none

/-- Modelled from the spec: `PulseDetectionNet.encode` is called by
`MultiSitePulseDetectionNet.forward` but is absent from
`src/models/network.py`; per the spec's control flow (§2) and the
encoder contract (§4.2) it runs the transpose, the spatial reduction and
the encoder stack, returning the most-downsampled features together with
the per-stage skip connections. -/
def encodeS (cfg : PNetCfg) : Shp → Option (Shp × List Shp)
  | [n, l, c] => do
    let x ← sprS cfg.reduceChannels [n, c, l]
    encLoopS cfg.kernelSize cfg.reduceChannels cfg.hiddenChannels x
  | _ => none

/-- Modelled from the spec: `PulseDetectionNet.bottleneck` is called by
`MultiSitePulseDetectionNet.forward` but is absent from
`src/models/network.py`; per the spec's bottleneck contract (§4.3) it
maps `(batch, C, T_b)` to `(batch, T_b, 2H)` through the bidirectional
recurrent stage. -/
def bottleneckS (cfg : PNetCfg) : Shp → Option Shp
  | [n, c, l] =>
    if cfg.useLstm ∧ c = cfg.hiddenChannels.getLastD 0 then
      some [n, l, 2 * cfg.lstmHiddenSize]
    else none
  | _ => none

/-- Modelled from the spec: `PulseDetectionNet.decode` is called by
`MultiSitePulseDetectionNet.forward` but is absent from
`src/models/network.py`; per the spec's decoder contract (§4.5 and §2)
it transposes the fused latent sequence back to `(batch, C, T_b)`, runs
the decoder stack against the site's skip stack in reverse creation
order, and applies the final per-timestep head. -/
def decodeS (cfg : PNetCfg) (fused : Shp) (skips : List Shp) : Option Shp := do
  let x ← transpose12S fused
  let x ← decLoopS cfg.kernelSize (decoderPairsC cfg) x skips.reverse
  let x ← finalS x
  transpose12S x

/-- Configuration of `MultiSitePulseDetectionNet`. -/
structure MSNetCfg where
  siteCfgs : List PNetCfg
  enableFusion : Bool := true
  directPtt : Bool := false
  pairsOpt : Option (List (ℕ × ℕ)) := none
deriving Repr, DecidableEq

/-- Default all-pairs list `(i, j)` for `i < j`, in the constructor's
nested-loop order. -/
def defaultPairs (k : ℕ) : List (ℕ × ℕ) :=
  (List.range k).flatMap fun i => ((List.range k).filter fun j => i < j).map fun j => (i, j)

/-- Site pairs used by the direct-PTT branch. -/
def msPairs (cfg : MSNetCfg) : List (ℕ × ℕ) :=
  match cfg.pairsOpt with
  | none => defaultPairs cfg.siteCfgs.length
  | some p => p

/-- Fused feature width `site_configs[0]['lstm_hidden_size'] * 2` read by
the joint constructor. -/
def msHiddenWidth (cfg : MSNetCfg) : ℕ :=
  2 * (cfg.siteCfgs.headD default).lstmHiddenSize

/-- Shapes of the per-site encode/bottleneck loop of
`MultiSitePulseDetectionNet.forward`: site `i` reads
`site_inputs[:, i, :, :in_channels_i]` (slicing truncates at the actual
extent), encodes it and applies the bottleneck. -/
def msEncodeLoopS (n t cm : ℕ) : List PNetCfg → Option (List Shp × List (List Shp))
  | [] => some ([], [])
  | cfg :: rest => do
    let (e, skips) ← encodeS cfg [n, t, min cfg.inChannels cm]
    let feat ← bottleneckS cfg e
    let (feats, allSkips) ← msEncodeLoopS n t cm rest
    pure (feat :: feats, skips :: allSkips)

/-- Shapes of the direct-PTT branch: mean-pool each fused latent over
time, and for each configured pair concatenate the two pooled vectors,
run the pair's regression head, and concatenate the per-pair scalars
columnwise. -/
def msPttLoopS (fdim : ℕ) (pooled : List Shp) : List (ℕ × ℕ) → Option (List Shp)
  | [] => some []
  | (i, j) :: ps =>
    if h : i < pooled.length ∧ j < pooled.length then do
      let a ← catFeatS (pooled.get ⟨i, h.1⟩) (pooled.get ⟨j, h.2⟩)
      let o ← pttHeadS (2 * fdim) fdim a
      let rest ← msPttLoopS fdim pooled ps
      pure (o :: rest)
    else none

/-- Shapes of the per-site decoding branch. -/
def msDecodeLoopS : List PNetCfg → List Shp → List (List Shp) → Option (List Shp)
  | [], _, _ => some []
  | cfg :: rest, f :: fs, sk :: sks => do
    let o ← decodeS cfg f sk
    let os ← msDecodeLoopS rest fs sks
    pure (o :: os)
  | _ :: _, _, _ => none

/-- Shape of `MultiSitePulseDetectionNet.forward` on a
`(N, num_sites, temporal, channel)` input: per-site encode and
bottleneck, optional cross-site fusion, then either the pairwise PTT
regression branch or the per-site decoding branch. -/
def msForwardS (cfg : MSNetCfg) : Shp → Option Shp
  | [n, s, t, cm] =>
    if cfg.siteCfgs.length ≤ s then do
      let (feats, allSkips) ← msEncodeLoopS n t cm cfg.siteCfgs
      let fused ← if cfg.enableFusion then cstaS (msHiddenWidth cfg) feats else some feats
      if cfg.directPtt then do
        let pooled ← fused.mapM meanDim1S
        let outs ← msPttLoopS (msHiddenWidth cfg) pooled (msPairs cfg)
        catAllDim1S outs
      else do
        let outs ← msDecodeLoopS cfg.siteCfgs fused allSkips
        stackDim1R3S outs
    else none
  | _ => none

/-! ## Stable top-k

`torch.topk(x, k, dim)[0]` keeps, along the given axis, the `k` largest
values in descending order; on ties the entry with the smaller original
index comes first.  We model it by sorting index/value pairs by value
descending and index ascending, and keeping the first `k` values. -/

/-- Order on index/value pairs: larger value first, ties by smaller index. -/
def topkRel {α : Type} [LinearOrder α] (p q : ℕ × α) : Prop :=
  q.2 < p.2 ∨ (p.2 = q.2 ∧ p.1 ≤ q.1)

instance {α : Type} [LinearOrder α] : DecidableRel (topkRel (α := α)) := fun p q => by
  unfold topkRel; infer_instance

instance {α : Type} [LinearOrder α] : IsTotal (ℕ × α) topkRel where
  total p q := by
    rcases lt_trichotomy p.2 q.2 with h | h | h
    · exact Or.inr (Or.inl h)
    · rcases le_total p.1 q.1 with h1 | h1
      · exact Or.inl (Or.inr ⟨h, h1⟩)
      · exact Or.inr (Or.inr ⟨h.symm, h1⟩)
    · exact Or.inl (Or.inl h)

instance {α : Type} [LinearOrder α] : IsTrans (ℕ × α) topkRel where
  trans p q r hpq hqr := by
    rcases hpq with h1 | ⟨h1, h1i⟩
    · rcases hqr with h2 | ⟨h2, h2i⟩
      · exact Or.inl (lt_trans h2 h1)
      · exact Or.inl (lt_of_eq_of_lt h2.symm h1)
    · rcases hqr with h2 | ⟨h2, h2i⟩
      · exact Or.inl (h2.trans_eq h1.symm)
      · exact Or.inr ⟨h1.trans h2, le_trans h1i h2i⟩

/-- Values returned by `torch.topk(xs, k)[0]` on a one-dimensional slice. -/
def topkVals {α : Type} [LinearOrder α] (k : ℕ) (xs : List α) : List α :=
  ((xs.enum.insertionSort topkRel).take k).map Prod.snd

/-! ## Value model

Tensors are total functions from natural-number indices to real values;
the extent parameters of each layer delimit the region the layer reads
(zero padding outside).  All normalisation layers use inference-mode
running statistics, and dropout is the identity. -/

abbrev V2 := ℕ → ℕ → ℝ
abbrev V3 := ℕ → ℕ → ℕ → ℝ
abbrev V4 := ℕ → ℕ → ℕ → ℕ → ℝ

/-- Zero rank-2 tensor. -/
def vzero2 : V2 := fun _ _ => 0

/-- Zero rank-3 tensor. -/
def vzero3 : V3 := fun _ _ _ => 0

/-- Epsilon used by `BatchNorm` and `LayerNorm` (default `1e-5`). -/
noncomputable def epsBN : ℝ := 1 / 100000

/-- Rectified linear unit. -/
noncomputable def relu (x : ℝ) : ℝ := max x 0

/-- Logistic sigmoid, `torch.sigmoid`. -/
noncomputable def sigm (x : ℝ) : ℝ := 1 / (1 + Real.exp (-x))

/-- Dot product of the first `n` coordinates. -/
noncomputable def dotR (n : ℕ) (f g : ℕ → ℝ) : ℝ := ∑ i ∈ Finset.range n, f i * g i

/-- Weights of a 1-d convolution: `w out in k` and bias. -/
structure ConvW where
  w : ℕ → ℕ → ℕ → ℝ
  b : ℕ → ℝ

/-- Weights of a 2-d convolution: `w out in kh kw` and bias. -/
structure Conv2W where
  w : ℕ → ℕ → ℕ → ℕ → ℝ
  b : ℕ → ℝ

/-- Batch-normalisation parameters: scale, shift, running mean, running
variance (inference mode). -/
structure BNW where
  g : ℕ → ℝ
  bet : ℕ → ℝ
  m : ℕ → ℝ
  v : ℕ → ℝ

/-- Linear-layer weights. -/
structure LinW where
  w : V2
  b : ℕ → ℝ

/-- Value of `nn.Conv1d(inC, ·, kern, padding=pad)` on a length-`len`
input (zero padding outside `[0, len)`). -/
noncomputable def conv1dV (p : ConvW) (inC kern pad len : ℕ) (x : V3) : V3 :=
  fun n o t => p.b o + ∑ i ∈ Finset.range inC, ∑ j ∈ Finset.range kern,
    p.w o i j * (if pad ≤ t + j ∧ t + j - pad < len then x n i (t + j - pad) else 0)

/-- Value of inference-mode `nn.BatchNorm1d` on a rank-3 tensor. -/
noncomputable def bn1dV (p : BNW) (x : V3) : V3 :=
  fun n c t => p.g c * (x n c t - p.m c) / Real.sqrt (p.v c + epsBN) + p.bet c

/-- Elementwise ReLU on a rank-3 tensor. -/
noncomputable def relu3 (x : V3) : V3 := fun n c t => relu (x n c t)

/-- Elementwise ReLU on a rank-4 tensor. -/
noncomputable def relu4 (x : V4) : V4 := fun n c h w => relu (x n c h w)

/-- Value of `nn.MaxPool1d(2)`. -/
noncomputable def maxpool2V (x : V3) : V3 := fun n c t => max (x n c (2 * t)) (x n c (2 * t + 1))

/-- Value of `nn.Conv2d(inC, ·, (kh, kw), padding=(ph, pw))` on an
`hext × wext` input. -/
noncomputable def conv2dV (p : Conv2W) (inC kh kw ph pw hext wext : ℕ) (x : V4) : V4 :=
  fun n o h w => p.b o + ∑ i ∈ Finset.range inC, ∑ a ∈ Finset.range kh, ∑ bj ∈ Finset.range kw,
    p.w o i a bj *
      (if ph ≤ h + a ∧ h + a - ph < hext ∧ pw ≤ w + bj ∧ w + bj - pw < wext then
        x n i (h + a - ph) (w + bj - pw)
      else 0)

/-- Value of inference-mode `nn.BatchNorm2d`. -/
noncomputable def bn2dV (p : BNW) (x : V4) : V4 :=
  fun n c h w => p.g c * (x n c h w - p.m c) / Real.sqrt (p.v c + epsBN) + p.bet c

/-- Value of `torch.topk(x, k, dim=2)[0]` on a rank-4 tensor whose
dimension-2 extent is `sext`. -/
noncomputable def topkDim2V (sext k : ℕ) (x : V4) : V4 :=
  fun n f j t => (topkVals k ((List.range sext).map fun i => x n f i t)).getD j 0

/-- Weights of `SpatialReductionPreprocessing`. -/
structure SPRW where
  c1 : Conv2W
  n1 : BNW
  c2 : Conv2W
  n2 : BNW
  ca : Conv2W

/-- Value of `SpatialReductionPreprocessing.forward` on a
`(batch, sext, text)` input, reducing to `k` spatial channels:
unsqueeze, two conv/norm/ReLU stages at 16 maps, stable top-k along the
spatial axis, 1×1 projection, squeeze. -/
noncomputable def sprV (p : SPRW) (sext text k : ℕ) (x : V3) : V3 :=
  let u : V4 := fun n _ s t => x n s t
  let a1 := relu4 (bn2dV p.n1 (conv2dV p.c1 1 5 7 2 3 sext text u))
  let a2 := relu4 (bn2dV p.n2 (conv2dV p.c2 16 5 7 2 3 sext text a1))
  let tk := topkDim2V sext k a2
  let adj := conv2dV p.ca 16 1 1 0 0 k text tk
  fun n s t => adj n 0 s t

/-- Post-convolution activations of `SpatialReductionPreprocessing`
(the tensor `torch.topk` is applied to). -/
noncomputable def sprPreTopkV (p : SPRW) (sext text : ℕ) (x : V3) : V4 :=
  let u : V4 := fun n _ s t => x n s t
  let a1 := relu4 (bn2dV p.n1 (conv2dV p.c1 1 5 7 2 3 sext text u))
  relu4 (bn2dV p.n2 (conv2dV p.c2 16 5 7 2 3 sext text a1))

/-- Weights of one `EncoderBlock`. -/
structure EncW where
  c1 : ConvW
  n1 : BNW
  c2 : ConvW
  n2 : BNW

/-- Value of `EncoderBlock.forward`: pooled output and pre-pool features. -/
noncomputable def encBlockV (p : EncW) (cin cout kern len : ℕ) (x : V3) : V3 × V3 :=
  let f1 := relu3 (bn1dV p.n1 (conv1dV p.c1 cin kern (kern / 2) len x))
  let f := relu3 (bn1dV p.n2 (conv1dV p.c2 cout kern (kern / 2) len f1))
  (maxpool2V f, f)

/-- Value of the encoder loop: threads the channel schedule and the
halving lengths, collecting skips (with their lengths) in creation
order; returns the bottleneck input and its length. -/
noncomputable def encLoopV (kern : ℕ) :
    List EncW → ℕ → List ℕ → ℕ → V3 → V3 × ℕ × List (V3 × ℕ)
  | [], _, _, len, x => (x, len, [])
  | _ :: _, _, [], len, x => (x, len, [])
  | w :: ws, cin, c :: cs, len, x =>
    let pf := encBlockV w cin c kern len x
    let rest := encLoopV kern ws c cs (len / 2) pf.1
    (rest.1, rest.2.1, (pf.2, len) :: rest.2.2)

/-- Weights of one LSTM gate: input weights, recurrent weights, and the
sum of the two PyTorch bias vectors (they only ever enter summed). -/
structure LstmGateW where
  w : V2
  u : V2
  b : ℕ → ℝ

/-- Weights of one LSTM direction (input, forget, cell, output gates). -/
structure LstmDirW where
  gi : LstmGateW
  gf : LstmGateW
  gg : LstmGateW
  go : LstmGateW

/-- Weights of one bidirectional LSTM layer. -/
structure LstmLayerW where
  fw : LstmDirW
  rv : LstmDirW

/-- One LSTM cell step on hidden size `hid` with `inD`-wide input. -/
noncomputable def lstmCellV (d : LstmDirW) (inD hid : ℕ) (xv h c : ℕ → ℝ) :
    (ℕ → ℝ) × (ℕ → ℝ) :=
  let pre := fun (gt : LstmGateW) k => gt.b k + dotR inD (gt.w k) xv + dotR hid (gt.u k) h
  let ig := fun k => sigm (pre d.gi k)
  let fg := fun k => sigm (pre d.gf k)
  let gg := fun k => Real.tanh (pre d.gg k)
  let og := fun k => sigm (pre d.go k)
  let c2 := fun k => fg k * c k + ig k * gg k
  (fun k => og k * Real.tanh (c2 k), c2)

/-- Hidden and cell state after `t` steps (zero initial state). -/
noncomputable def lstmIterV (d : LstmDirW) (inD hid : ℕ) (xs : ℕ → ℕ → ℝ) :
    ℕ → (ℕ → ℝ) × (ℕ → ℝ)
  | 0 => (fun _ => 0, fun _ => 0)
  | t + 1 =>
    let s := lstmIterV d inD hid xs t
    lstmCellV d inD hid (xs t) s.1 s.2

/-- Output of one LSTM direction at time `t`. -/
noncomputable def lstmDirOutV (d : LstmDirW) (inD hid : ℕ) (xs : ℕ → ℕ → ℝ) (t : ℕ) :
    ℕ → ℝ :=
  (lstmIterV d inD hid xs (t + 1)).1

/-- Output of one bidirectional layer on a length-`len` input: forward
states concatenated with backward states (the backward direction
consumes the input reversed). -/
noncomputable def lstmBidirV (p : LstmLayerW) (inD hid len : ℕ) (xs : ℕ → ℕ → ℝ) :
    ℕ → ℕ → ℝ :=
  fun t k =>
    if k < hid then lstmDirOutV p.fw inD hid xs t k
    else lstmDirOutV p.rv inD hid (fun u => xs (len - 1 - u)) (len - 1 - t) (k - hid)

/-- Stacked bidirectional LSTM (inter-layer dropout is the identity in
inference mode). -/
noncomputable def lstmStackV : List LstmLayerW → ℕ → ℕ → ℕ → (ℕ → ℕ → ℝ) → ℕ → ℕ → ℝ
  | [], _, _, _, xs => xs
  | p :: ps, inD, hid, len, xs => lstmStackV ps (2 * hid) hid len (lstmBidirV p inD hid len xs)

/-- Batched LSTM value on a `(batch, time, feature)` tensor. -/
noncomputable def lstmV (ps : List LstmLayerW) (inD hid len : ℕ) (x : V3) : V3 :=
  fun n t k => lstmStackV ps inD hid len (fun u c => x n u c) t k

/-- Value of `nn.ConvTranspose1d(inC, inC, kernel_size=2, stride=2)` on a
length-`len` input (PyTorch stores the weight as `w in out k`). -/
noncomputable def tconv2V (p : ConvW) (inC len : ℕ) (x : V3) : V3 :=
  fun n o t =>
    p.b o + ∑ i ∈ Finset.range inC, p.w i o (t % 2) * (if t / 2 < len then x n i (t / 2) else 0)

/-- Value of `torch.cat([a, b], dim=1)` where `a` has `c1` channels. -/
noncomputable def cat1V (c1 : ℕ) (a bt : V3) : V3 :=
  fun n c t => if c < c1 then a n c t else bt n (c - c1) t

/-- Weights of one `DecoderBlock`. -/
structure DecW where
  tc : ConvW
  c1 : ConvW
  n1 : BNW
  c2 : ConvW
  n2 : BNW

/-- Value of `DecoderBlock.forward` on a length-`len` input with its skip
tensor (length `2*len` after upsampling). -/
noncomputable def decBlockV (p : DecW) (cin kern len : ℕ) (x skip : V3) : V3 :=
  let up := tconv2V p.tc cin len x
  let ct := cat1V cin up skip
  let h1 := relu3 (bn1dV p.n1 (conv1dV p.c1 (cin * 2) kern (kern / 2) (2 * len) ct))
  relu3 (bn1dV p.n2 (conv1dV p.c2 cin kern (kern / 2) (2 * len) h1))

/-- Decoder weights paired with their channel schedule. -/
def attachPairs : List DecW → List (ℕ × ℕ) → List (DecW × ℕ × ℕ)
  | w :: ws, pr :: ps => (w, pr) :: attachPairs ws ps
  | _, _ => []

/-- Value of the decoder loop of `PulseDetectionNet.forward` (zip
semantics over blocks and reversed skips); returns the output and its
length. -/
noncomputable def decLoopV (kern : ℕ) : List (DecW × ℕ × ℕ) → ℕ → V3 → List (V3 × ℕ) → V3 × ℕ
  | [], len, x, _ => (x, len)
  | _ :: _, len, x, [] => (x, len)
  | (w, cin, _cout) :: ds, len, x, sk :: sks =>
    decLoopV kern ds (2 * len) (decBlockV w cin kern len x sk.1) sks

/-- Weights of the `final` head. -/
structure FinW where
  c1 : ConvW
  n1 : BNW
  c2 : ConvW

/-- Value of the `final` head of `PulseDetectionNet` on a length-`len`
input: conv, norm, ReLU, 1-wide conv, sigmoid. -/
noncomputable def finalV (p : FinW) (len : ℕ) (x : V3) : V3 :=
  fun n c t => sigm (conv1dV p.c2 32 1 0 len (relu3 (bn1dV p.n1 (conv1dV p.c1 32 3 1 len x))) n c t)

/-- Full weight set of one `PulseDetectionNet`. -/
structure PNetW where
  spr : SPRW
  encs : List EncW
  lstm : List LstmLayerW
  decs : List DecW
  fin : FinW

/-- Stages of `PulseDetectionNet.forward` before the `final` head:
transpose, spatial reduction, encoder loop, bottleneck LSTM, decoder
loop over reversed skips; returns the decoder output and its length. -/
noncomputable def pnetPreFinalV (cfg : PNetCfg) (w : PNetW) (cext len : ℕ) (x : V3) : V3 × ℕ :=
  let xT : V3 := fun n c t => x n t c
  let x0 := sprV w.spr cext len cfg.reduceChannels xT
  let enc := encLoopV cfg.kernelSize w.encs cfg.reduceChannels cfg.hiddenChannels len x0
  let bt : V3 :=
    if cfg.useLstm then
      let o := lstmV w.lstm (cfg.hiddenChannels.getLastD 0) cfg.lstmHiddenSize enc.2.1
        (fun n t c => enc.1 n c t)
      fun n c t => o n t c
    else enc.1
  decLoopV cfg.kernelSize (attachPairs w.decs (decoderPairsC cfg)) enc.2.1 bt
    enc.2.2.reverse

/-- Value of `PulseDetectionNet.forward` on a `(batch, len, cext)` input:
the pre-final stages, then the `final` head, then the transpose. -/
noncomputable def pnetForwardV (cfg : PNetCfg) (w : PNetW) (cext len : ℕ) (x : V3) : V3 :=
  fun n l c =>
    finalV w.fin (pnetPreFinalV cfg w cext len x).2 (pnetPreFinalV cfg w cext len x).1 n c l

/-! ### Value model of the joint network -/

/-- Weights of `nn.MultiheadAttention` (packed query/key/value input
projections and the output projection). -/
structure MHAW where
  wq : V2
  wk : V2
  wv : V2
  wo : V2
  bq : ℕ → ℝ
  bk : ℕ → ℝ
  bv : ℕ → ℝ
  bo : ℕ → ℝ

/-- Softmax over the first `s` coordinates. -/
noncomputable def softmaxR (s : ℕ) (f : ℕ → ℝ) (j : ℕ) : ℝ :=
  Real.exp (f j) / ∑ u ∈ Finset.range s, Real.exp (f u)

/-- Value of self-attention `mha(x, x, x)` with embedding width `e`,
`nh` heads, sequence length `s` (batch-first layout `(b, s, e)`). -/
noncomputable def mhaV (p : MHAW) (e nh s : ℕ) (x : V3) : V3 :=
  let d := e / nh
  let q : V3 := fun b u j => p.bq j + dotR e (p.wq j) (x b u)
  let ky : V3 := fun b u j => p.bk j + dotR e (p.wk j) (x b u)
  let vl : V3 := fun b u j => p.bv j + dotR e (p.wv j) (x b u)
  let score : ℕ → ℕ → ℕ → ℕ → ℝ := fun b hd u u2 =>
    dotR d (fun i => q b u (hd * d + i)) (fun i => ky b u2 (hd * d + i)) / Real.sqrt d
  let ctx : V3 := fun b u j =>
    ∑ u2 ∈ Finset.range s, softmaxR s (score b (j / d) u) u2 * vl b u2 j
  fun b u j => p.bo j + dotR e (p.wo j) (ctx b u)

/-- LayerNorm parameters. -/
structure LNW where
  g : ℕ → ℝ
  bet : ℕ → ℝ

/-- Value of `nn.LayerNorm(e)` over the last axis. -/
noncomputable def lnV (p : LNW) (e : ℕ) (x : V3) : V3 :=
  fun b u c =>
    let m := (∑ j ∈ Finset.range e, x b u j) / e
    let vv := (∑ j ∈ Finset.range e, (x b u j - m) ^ 2) / e
    p.g c * (x b u c - m) / Real.sqrt (vv + epsBN) + p.bet c

/-- Weights of `CrossSiteTemporalAttention`. -/
structure CSTAW where
  sa : MHAW
  ta : MHAW
  n1 : LNW
  n2 : LNW

/-- Value of `CrossSiteTemporalAttention.forward` on a list of per-site
`(batch, len, e)` latents: stack, site-mixing attention per timepoint
(residual + norm), temporal attention per site (residual + norm), split
back into per-site tensors in site order. -/
noncomputable def cstaV (w : CSTAW) (e nh len : ℕ) (inputs : List V3) : List V3 :=
  let s := inputs.length
  let stacked : V4 := fun n i l c => (inputs.getD i vzero3) n l c
  let r : V3 := fun b i c => stacked (b / len) i (b % len) c
  let sa := mhaV w.sa e nh s r
  let sa2 := lnV w.n1 e (fun b i c => sa b i c + r b i c)
  let ti : V3 := fun b l c => sa2 ((b / s) * len + l) (b % s) c
  let ta := mhaV w.ta e nh len ti
  let ta2 := lnV w.n2 e (fun b l c => ta b l c + ti b l c)
  (List.range s).map fun i => fun n l c => ta2 (n * s + i) l c

/-- Value of `nn.Linear(inF, ·)`. -/
noncomputable def linV (p : LinW) (inF : ℕ) (x : V2) : V2 :=
  fun n j => p.b j + dotR inF (p.w j) (x n)

/-- Weights of one `PTTRegressionHead`. -/
structure HeadW where
  l1 : LinW
  bn : BNW
  l2 : LinW

/-- All-zero regression head (list-lookup default). -/
noncomputable def zeroHead : HeadW :=
  ⟨⟨fun _ _ => 0, fun _ => 0⟩, ⟨fun _ => 0, fun _ => 0, fun _ => 0, fun _ => 0⟩,
    ⟨fun _ _ => 0, fun _ => 0⟩⟩

/-- Value of `PTTRegressionHead.forward` (linear, ReLU, inference-mode
batch norm, linear). -/
noncomputable def pttHeadV (p : HeadW) (inF hidF : ℕ) (x : V2) : V2 :=
  let h1 : V2 := fun n k => relu (linV p.l1 inF x n k)
  let h2 : V2 := fun n k => p.bn.g k * (h1 n k - p.bn.m k) / Real.sqrt (p.bn.v k + epsBN) + p.bn.bet k
  linV p.l2 hidF h2

/-- Modelled from the spec: value of the missing `PulseDetectionNet.encode`
(transpose, spatial reduction, encoder stack); returns the encoded
features, the bottleneck length, and the skip stack with lengths. -/
noncomputable def encodeSiteV (cfg : PNetCfg) (w : PNetW) (cext text : ℕ) (x : V3) :
    V3 × ℕ × List (V3 × ℕ) :=
  let xT : V3 := fun n c t => x n t c
  let x0 := sprV w.spr cext text cfg.reduceChannels xT
  encLoopV cfg.kernelSize w.encs cfg.reduceChannels cfg.hiddenChannels text x0

/-- Modelled from the spec: value of the missing
`PulseDetectionNet.bottleneck`, mapping `(batch, C, T_b)` to
`(batch, T_b, 2H)` through the bidirectional LSTM. -/
noncomputable def bottleneckSiteV (cfg : PNetCfg) (w : PNetW) (lenB : ℕ) (x : V3) : V3 :=
  lstmV w.lstm (cfg.hiddenChannels.getLastD 0) cfg.lstmHiddenSize lenB (fun n t c => x n c t)

/-- Modelled from the spec: value of the missing `PulseDetectionNet.decode`
(transpose back, decoder stack over the site's reversed skips, final
head, transpose). -/
noncomputable def decodeSiteV (cfg : PNetCfg) (w : PNetW) (lenB : ℕ) (fused : V3)
    (skips : List (V3 × ℕ)) : V3 :=
  let xT : V3 := fun n c t => fused n t c
  let dec := decLoopV cfg.kernelSize (attachPairs w.decs (decoderPairsC cfg)) lenB xT skips.reverse
  fun n l c => finalV w.fin dec.2 dec.1 n c l

/-- Full weight set of `MultiSitePulseDetectionNet` (one site network per
config, the fusion block, one regression head per pair in pair order). -/
structure MSW where
  sites : List (PNetCfg × PNetW)
  csta : CSTAW
  heads : List HeadW
  enableFusion : Bool
  directPtt : Bool
  pairsOpt : Option (List (ℕ × ℕ))

/-- Site pairs used by the direct-PTT branch (defaulting to all pairs). -/
def msPairsW (ms : MSW) : List (ℕ × ℕ) :=
  match ms.pairsOpt with
  | none => defaultPairs ms.sites.length
  | some p => p

/-- Fused feature width `site_configs[0]['lstm_hidden_size'] * 2`. -/
def msHiddenWidthW (ms : MSW) : ℕ :=
  2 * ((ms.sites.map Prod.fst).headD default).lstmHiddenSize

/-- Bottleneck sequence length shared by all sites (the joint design
assumes identical sequence length and stage count per site). -/
def msLenB (ms : MSW) (text : ℕ) : ℕ :=
  text / 2 ^ ((ms.sites.map Prod.fst).headD default).hiddenChannels.length

/-- Per-site encode results of `MultiSitePulseDetectionNet.forward`:
site `i` reads `site_inputs[:, i, :, :in_channels_i]`. -/
noncomputable def msEncFullV (ms : MSW) (text cm : ℕ) (x : V4) :
    List (V3 × ℕ × List (V3 × ℕ)) :=
  ms.sites.enum.map fun p =>
    encodeSiteV p.2.1 p.2.2 (min p.2.1.inChannels cm) text (fun n t c => x n p.1 t c)

/-- Per-site bottleneck outputs (the `encoded_features` list of the
source). -/
noncomputable def msEncodedV (ms : MSW) (text cm : ℕ) (x : V4) : List V3 :=
  ms.sites.enum.map fun p =>
    bottleneckSiteV p.2.1 p.2.2
      (encodeSiteV p.2.1 p.2.2 (min p.2.1.inChannels cm) text (fun n t c => x n p.1 t c)).2.1
      (encodeSiteV p.2.1 p.2.2 (min p.2.1.inChannels cm) text (fun n t c => x n p.1 t c)).1

/-- The `fused_features` list of `MultiSitePulseDetectionNet.forward`:
the cross-site attention output when fusion is enabled, else exactly the
encoded features. -/
noncomputable def msFusedV (ms : MSW) (text cm : ℕ) (x : V4) : List V3 :=
  if ms.enableFusion then
    cstaV ms.csta (msHiddenWidthW ms) 4 (msLenB ms text) (msEncodedV ms text cm x)
  else msEncodedV ms text cm x

/-- Value of the direct-PTT branch: mean-pool the fused latents over
time, and for each pair concatenate the two pooled vectors and apply the
pair's regression head; column `p` of the output is pair `p`'s scalar. -/
noncomputable def msPttV (ms : MSW) (lenB : ℕ) (fused : List V3) : V2 :=
  let fd := msHiddenWidthW ms
  let pooled : List V2 := fused.map fun f => fun n c => (∑ t ∈ Finset.range lenB, f n t c) / lenB
  fun n p =>
    let pr := (msPairsW ms).getD p (0, 0)
    let reg : V2 := fun n2 f =>
      if f < fd then (pooled.getD pr.1 vzero2) n2 f else (pooled.getD pr.2 vzero2) n2 (f - fd)
    pttHeadV (ms.heads.getD p zeroHead) (2 * fd) fd reg n 0

/-- All-zero site weight set (list-lookup default). -/
noncomputable def zeroPNetW : PNetW :=
  { spr := ⟨⟨fun _ _ _ _ => 0, fun _ => 0⟩, ⟨fun _ => 0, fun _ => 0, fun _ => 0, fun _ => 0⟩,
      ⟨fun _ _ _ _ => 0, fun _ => 0⟩, ⟨fun _ => 0, fun _ => 0, fun _ => 0, fun _ => 0⟩,
      ⟨fun _ _ _ _ => 0, fun _ => 0⟩⟩
    encs := []
    lstm := []
    decs := []
    fin := ⟨⟨fun _ _ _ => 0, fun _ => 0⟩, ⟨fun _ => 0, fun _ => 0, fun _ => 0, fun _ => 0⟩,
      ⟨fun _ _ _ => 0, fun _ => 0⟩⟩ }

/-- Value of the per-site decoding branch, stacked along dimension 1. -/
noncomputable def msDecodeV (ms : MSW) (text cm : ℕ) (x : V4) (fused : List V3) : V4 :=
  fun n i l c =>
    let sw := ms.sites.getD i (default, zeroPNetW)
    let enc := encodeSiteV sw.1 sw.2 (min sw.1.inChannels cm) text (fun n2 t c2 => x n2 i t c2)
    decodeSiteV sw.1 sw.2 enc.2.1 (fused.getD i vzero3) enc.2.2 n l c

/-- Value of `MultiSitePulseDetectionNet.forward`: per-site encode and
bottleneck, optional fusion, then either the pairwise regression branch
(a `(batch, num_pairs)` tensor) or the decoding branch (a stacked
`(batch, sites, time, 1)` tensor). -/
noncomputable def msForwardV (ms : MSW) (text cm : ℕ) (x : V4) : V2 ⊕ V4 :=
  if ms.directPtt then Sum.inl (msPttV ms (msLenB ms text) (msFusedV ms text cm x))
  else Sum.inr (msDecodeV ms text cm x (msFusedV ms text cm x))

/-- Modelled from the spec (§4.7, §9): the forward pass with the fusion
stage bypassed by the identity — the branch consumes the per-site
bottleneck outputs directly. -/
noncomputable def msForwardNoFusionV (ms : MSW) (text cm : ℕ) (x : V4) : V2 ⊕ V4 :=
  if ms.directPtt then Sum.inl (msPttV ms (msLenB ms text) (msEncodedV ms text cm x))
  else Sum.inr (msDecodeV ms text cm x (msEncodedV ms text cm x))

/-! ## Checkpoint-key renaming (`load_pretrained`)

`load_pretrained` builds `{k.replace('model.', ''): v for k, v in
state_dict.items()}`.  Python's `str.replace` removes **every**
occurrence of the pattern, scanning left to right, not only a leading
prefix.  Keys are modelled as lists of characters. -/

/-- Characters of the pattern `"model."`. -/
def modelDotChars : List Char := ['m', 'o', 'd', 'e', 'l', '.']

/-- Value of `k.replace('model.', '')`: removes every occurrence of
`"model."`, scanning left to right and continuing after each removal. -/
def stripModelAll : List Char → List Char
  | 'm' :: 'o' :: 'd' :: 'e' :: 'l' :: '.' :: rest => stripModelAll rest
  | c :: cs => c :: stripModelAll cs
  | [] => []

/-- The renaming the claim describes: remove `"model."` from the
beginning of the key only, leaving the remainder unchanged. -/
def stripLeadOnly (s : List Char) : List Char :=
  if modelDotChars.isPrefixOf s then s.drop 6 else s

/-- Whether `"model."` occurs anywhere in the key. -/
def hasModelDot : List Char → Bool
  | [] => false
  | c :: cs => modelDotChars.isPrefixOf (c :: cs) || hasModelDot cs

/-- Value of the renamed state dict built by `load_pretrained`: every key
is rewritten with `replace('model.', '')`, values untouched. -/
def renameStateDict {V : Type} (sd : List (List Char × V)) : List (List Char × V) :=
  sd.map fun e => (stripModelAll e.1, e.2)

/-! ## Dataset normalisation (`PulseDataset._load_data`) -/

/-- Which normalisation a loaded sample receives. -/
inductive NormMode
  | perChannel
  | global2d
deriving DecidableEq, Repr

/-- Normalisation dispatch of `_load_data`: the joint branch forces
`self.norm_2d = False` and normalises per channel over time
(`axis=-2`); the single-position branch selects `axis=(-1,-2)` when
`norm_2d` is set and `axis=-2` otherwise. -/
def appliedNormMode (isJoint norm2d : Bool) : NormMode :=
  if isJoint then .perChannel else if norm2d then .global2d else .perChannel

/-- The dispatch the claim describes: `norm_2d` alone decides. -/
def claimedNormMode (norm2d : Bool) : NormMode :=
  if norm2d then .global2d else .perChannel

/-- Per-channel mean over the time axis of a `(time, channel)` sample. -/
noncomputable def chMean (text : ℕ) (x : V2) (c : ℕ) : ℝ :=
  (∑ t ∈ Finset.range text, x t c) / text

/-- Per-channel biased variance over the time axis. -/
noncomputable def chVar (text : ℕ) (x : V2) (c : ℕ) : ℝ :=
  (∑ t ∈ Finset.range text, (x t c - chMean text x c) ^ 2) / text

/-- Per-channel normalisation `(data - data.mean(axis=-2)) / data.std(axis=-2)`. -/
noncomputable def normPerChannelV (text : ℕ) (x : V2) : V2 :=
  fun t c => (x t c - chMean text x c) / Real.sqrt (chVar text x c)

/-- Global mean over time and channel axes. -/
noncomputable def gMean (text cext : ℕ) (x : V2) : ℝ :=
  (∑ t ∈ Finset.range text, ∑ c ∈ Finset.range cext, x t c) / (text * cext)

/-- Global biased variance over time and channel axes. -/
noncomputable def gVar (text cext : ℕ) (x : V2) : ℝ :=
  (∑ t ∈ Finset.range text, ∑ c ∈ Finset.range cext, (x t c - gMean text cext x) ^ 2) /
    (text * cext)

/-- Global normalisation `(data - data.mean(axis=(-1,-2))) / data.std(axis=(-1,-2))`. -/
noncomputable def normGlobalV (text cext : ℕ) (x : V2) : V2 :=
  fun t c => (x t c - gMean text cext x) / Real.sqrt (gVar text cext x)

/-! ## Freeze / unfreeze (`freeze_site`, `unfreeze_site`)

The trainable state of the joint network is modelled as the per-site
parameter lists plus the fusion and regression-head parameters; each
parameter carries its numeric value and its `requires_grad` flag. -/

/-- One learnable parameter. -/
structure ParamE where
  value : ℚ
  requiresGrad : Bool
deriving DecidableEq, Repr

/-- Parameter state of `MultiSitePulseDetectionNet`. -/
structure MSParams where
  sites : List (List ParamE)
  fusion : List ParamE
  heads : List ParamE
deriving DecidableEq, Repr

/-- Apply `f` to the element at position `i` (no effect out of range). -/
def updateAt {β : Type} : ℕ → (β → β) → List β → List β
  | _, _, [] => []
  | 0, f, x :: xs => f x :: xs
  | n + 1, f, x :: xs => x :: updateAt n f xs

/-- Set a parameter's `requires_grad` flag. -/
def setGrad (bv : Bool) (p : ParamE) : ParamE := { p with requiresGrad := bv }

/-- Value of `freeze_site(i)`: set `requires_grad = False` on every
parameter of site `i`'s sub-network. -/
def freezeSiteM (st : MSParams) (i : ℕ) : MSParams :=
  { st with sites := updateAt i (List.map (setGrad false)) st.sites }

/-- Value of `unfreeze_site(i)`: set `requires_grad = True` on every
parameter of site `i`'s sub-network. -/
def unfreezeSiteM (st : MSParams) (i : ℕ) : MSParams :=
  { st with sites := updateAt i (List.map (setGrad true)) st.sites }

/-- Composition of the encoder stack and the matching decoder stack of
`PulseDetectionNet` (skips consumed in reverse creation order), without
the bottleneck stage — the configuration of claim C4. -/
def encDecS (c0 kern : ℕ) (cs : List ℕ) (s : Shp) : Option Shp := do
  let (x, skips) ← encLoopS kern c0 cs s
  decLoopS kern (chainPairs (cs.getLastD c0) ((cs.reverse ++ [32]).drop 1)) x skips.reverse

/-- Shapes of the skip connections produced by the encoder loop on a
`(n, ·, t)` input with channel schedule `cs`. -/
def skipsShapes (n : ℕ) : List ℕ → ℕ → List Shp
  | [], _ => []
  | c :: cs, t => [n, c, t] :: skipsShapes n cs (t / 2)

/-- Shapes fed to the decoder loop: channel list walked in order with
the time extent doubling from `t`. -/
def stepSkips (n : ℕ) : List ℕ → ℕ → List Shp
  | [], _ => []
  | c :: cs, t => [n, c, t] :: stepSkips n cs (2 * t)

/-! ## Theorems -/

/-- Sigmoid bounds used for the decode-mode probability range. -/
theorem sigm_mem_unit (z : ℝ) : 0 ≤ sigm z ∧ sigm z ≤ 1 := by
  have hp : (0 : ℝ) < 1 + Real.exp (-z) := by positivity
  constructor
  · exact div_nonneg zero_le_one hp.le
  · rw [sigm, div_le_one hp]
    linarith [Real.exp_pos (-z)]

/-- Mapping a constant over `List.range`. -/
theorem map_const_range {α : Type} (s : ℕ) (v : α) :
    (List.range s).map (fun _ => v) = List.replicate s v := by
  induction s with
  | zero => rfl
  | succ k ih => rw [List.range_succ, List.map_append, ih, List.replicate_succ']; rfl

/-- C1: with three sites of input channel counts 21, 42, 21, sequence
length 5000, reduced_spatial 8, hidden channels [64, 128, 256], LSTM
hidden size 128, direct PTT, fusion enabled and default pairing, the
joint forward pass on a batch of 16 samples produces a tensor of shape
exactly (16, 3). -/
theorem C1_multisite_forward_output_shape :
    msForwardS
      { siteCfgs := [{ inChannels := 21, seqLen := 5000 }, { inChannels := 42, seqLen := 5000 },
          { inChannels := 21, seqLen := 5000 }],
        enableFusion := true, directPtt := true, pairsOpt := none }
      [16, 3, 5000, 42] = some [16, 3] := by decide

/-- C2: on any nonempty list of identically shaped `(N, T, C)` latent
tensors, `CrossSiteTemporalAttention.forward` returns a list of the same
length in which every entry has shape exactly `(N, T, C)`. -/
theorem C2_fusion_shape_invariance (n l c s : ℕ) (hs : 0 < s) :
    cstaS c (List.replicate s [n, l, c]) = some (List.replicate s [n, l, c]) := by
  cases s with
  | zero => omega
  | succ k =>
    have hall : (List.replicate k ([n, l, c] : Shp)).all (· = [n, l, c]) = true := by
      simp [List.all_eq_true, List.mem_replicate]
    have hlen : (List.replicate k ([n, l, c] : Shp)).length = k := List.length_replicate ..
    simp only [List.replicate_succ, cstaS, stackDim1S, hall, if_true, hlen]
    simp only [transpose12S4, reshapeS, mhaS, addResidS, lnS, Option.bind_eq_bind]
    have h1 : ([n, l, k + 1, c] : Shp).prod = ([n * l, k + 1, c] : Shp).prod := by
      simp [List.prod]; ring
    have h2 : ([n * l, k + 1, c] : Shp).prod = ([n, l, k + 1, c] : Shp).prod := h1.symm
    have h3 : ([n, k + 1, l, c] : Shp).prod = ([n * (k + 1), l, c] : Shp).prod := by
      simp [List.prod]; ring
    have h4 : ([n * (k + 1), l, c] : Shp).prod = ([n, k + 1, l, c] : Shp).prod := h3.symm
    simp [h1, h2, h3, h4, map_const_range, List.replicate_succ, List.prod, mul_assoc,
      mul_comm, mul_left_comm]

/-- Witness for C2 at the end-to-end configuration's latent shapes. -/
theorem C2_fusion_shape_invariance_witness :
    cstaS 256 (List.replicate 3 [16, 625, 256]) = some (List.replicate 3 [16, 625, 256]) :=
  C2_fusion_shape_invariance 16 625 256 3 (by decide)

/-- C5: every element of the output of `PulseDetectionNet.forward` lies
in `[0, 1]`: the final head ends in an elementwise sigmoid. -/
theorem C5_decode_probability_range (cfg : PNetCfg) (w : PNetW) (cext len : ℕ) (x : V3)
    (n l c : ℕ) :
    0 ≤ pnetForwardV cfg w cext len x n l c ∧ pnetForwardV cfg w cext len x n l c ≤ 1 := by
  have h : pnetForwardV cfg w cext len x n l c =
      sigm (conv1dV w.fin.c2 32 1 0 (pnetPreFinalV cfg w cext len x).2
        (relu3 (bn1dV w.fin.n1
          (conv1dV w.fin.c1 32 3 1 (pnetPreFinalV cfg w cext len x).2
            (pnetPreFinalV cfg w cext len x).1))) n c l) := rfl
  rw [h]
  exact sigm_mem_unit _

/-- C6: with `enable_fusion=False`, the `fused_features` the branches
consume are exactly the per-site bottleneck outputs, and the whole
forward pass coincides with the fusion-bypassed pipeline. -/
theorem C6_fusion_bypass_identity (sites : List (PNetCfg × PNetW)) (cw : CSTAW)
    (hds : List HeadW) (dptt : Bool) (prs : Option (List (ℕ × ℕ))) (text cm : ℕ) (x : V4) :
    msFusedV ⟨sites, cw, hds, false, dptt, prs⟩ text cm x
      = msEncodedV ⟨sites, cw, hds, false, dptt, prs⟩ text cm x ∧
    msForwardV ⟨sites, cw, hds, false, dptt, prs⟩ text cm x
      = msForwardNoFusionV ⟨sites, cw, hds, false, dptt, prs⟩ text cm x := by
  refine ⟨by simp [msFusedV], ?_⟩
  simp [msForwardV, msForwardNoFusionV, msFusedV]

/-- getD after an `updateAt`. -/
theorem updateAt_getD {β : Type} (f : β → β) :
    ∀ (l : List β) (i j : ℕ) (d : β),
      (updateAt i f l).getD j d = if j = i ∧ j < l.length then f (l.getD j d) else l.getD j d
  | [], i, j, d => by simp [updateAt]
  | x :: xs, 0, 0, d => by simp [updateAt]
  | x :: xs, 0, j + 1, d => by simp [updateAt]
  | x :: xs, i + 1, 0, d => by simp [updateAt]
  | x :: xs, i + 1, j + 1, d => by
    simp only [updateAt, List.getD_cons_succ, List.length_cons]
    rw [updateAt_getD f xs i j d]
    by_cases h : j = i ∧ j < xs.length
    · rw [if_pos h, if_pos (by omega)]
    · rw [if_neg h, if_neg (by omega)]

/-- setGrad keeps the numeric value. -/
theorem setGrad_value (bv : Bool) (p : ParamE) : (setGrad bv p).value = p.value := rfl

/-- C10: `freeze_site(i)` clears the `requires_grad` flag of every
parameter of site `i` and `unfreeze_site(i)` sets it; neither changes
any parameter value, any other site's parameters, or the fusion and
regression-head parameters. -/
theorem C10_freeze_unfreeze_frame (st : MSParams) (i : ℕ) :
    (∀ p ∈ (freezeSiteM st i).sites.getD i [], p.requiresGrad = false) ∧
    (∀ p ∈ (unfreezeSiteM st i).sites.getD i [], p.requiresGrad = true) ∧
    (∀ j, ((freezeSiteM st i).sites.getD j []).map ParamE.value
        = (st.sites.getD j []).map ParamE.value) ∧
    (∀ j, ((unfreezeSiteM st i).sites.getD j []).map ParamE.value
        = (st.sites.getD j []).map ParamE.value) ∧
    (∀ j, j ≠ i → (freezeSiteM st i).sites.getD j [] = st.sites.getD j []
        ∧ (unfreezeSiteM st i).sites.getD j [] = st.sites.getD j []) ∧
    (freezeSiteM st i).fusion = st.fusion ∧ (freezeSiteM st i).heads = st.heads ∧
    (unfreezeSiteM st i).fusion = st.fusion ∧ (unfreezeSiteM st i).heads = st.heads := by
  refine ⟨?_, ?_, ?_, ?_, ?_, rfl, rfl, rfl, rfl⟩
  · intro p hp
    rw [freezeSiteM] at hp
    simp only [updateAt_getD] at hp
    by_cases h : i < st.sites.length
    · rw [if_pos ⟨trivial, h⟩] at hp
      obtain ⟨q, _, rfl⟩ := List.mem_map.1 hp
      rfl
    · rw [if_neg (fun hc => h hc.2)] at hp
      have : st.sites.getD i [] = [] := List.getD_eq_default _ _ (by omega)
      rw [this] at hp
      exact absurd hp (List.not_mem_nil p)
  · intro p hp
    rw [unfreezeSiteM] at hp
    simp only [updateAt_getD] at hp
    by_cases h : i < st.sites.length
    · rw [if_pos ⟨trivial, h⟩] at hp
      obtain ⟨q, _, rfl⟩ := List.mem_map.1 hp
      rfl
    · rw [if_neg (fun hc => h hc.2)] at hp
      have : st.sites.getD i [] = [] := List.getD_eq_default _ _ (by omega)
      rw [this] at hp
      exact absurd hp (List.not_mem_nil p)
  · intro j
    rw [freezeSiteM]
    simp only [updateAt_getD]
    by_cases h : j = i ∧ j < st.sites.length
    · rw [if_pos h, List.map_map]
      rfl
    · rw [if_neg h]
  · intro j
    rw [unfreezeSiteM]
    simp only [updateAt_getD]
    by_cases h : j = i ∧ j < st.sites.length
    · rw [if_pos h, List.map_map]
      rfl
    · rw [if_neg h]
  · intro j hj
    constructor
    · rw [freezeSiteM]
      simp only [updateAt_getD]
      rw [if_neg (by omega)]
    · rw [unfreezeSiteM]
      simp only [updateAt_getD]
      rw [if_neg (by omega)]

/-- Keys without any occurrence of the pattern are left unchanged by the
replacement. -/
theorem stripModelAll_of_not_hasModelDot :
    ∀ s : List Char, hasModelDot s = false → stripModelAll s = s := by
  intro s
  induction s using stripModelAll.induct with
  | case1 rest ih =>
    intro h
    rw [hasModelDot] at h
    simp only [Bool.or_eq_false_iff] at h
    exact absurd h.1 (by simp [modelDotChars, List.isPrefixOf])
  | case2 c cs hne ih =>
    intro h
    rw [hasModelDot, Bool.or_eq_false_iff] at h
    rw [stripModelAll.eq_def]
    split
    · rename_i rest heq
      injection heq with h1 h2
      exact (hne rest h1 h2).elim
    · rename_i c2 cs2 heq
      injection heq with h1 h2
      subst h1
      subst h2
      rw [ih h.2]
    · rename_i heq
      exact absurd heq (List.cons_ne_nil _ _)
  | case3 => intro _; rfl

/-- The replacement consumes a leading occurrence of the pattern. -/
theorem stripModelAll_append_pat (s : List Char) :
    stripModelAll (modelDotChars ++ s) = stripModelAll s := rfl

/-- Agreement of the code's replacement with prefix stripping on keys in
which the pattern occurs only as a leading prefix. -/
theorem stripModelAll_eq_stripLeadOnly (k : List Char)
    (h : hasModelDot (stripLeadOnly k) = false) : stripModelAll k = stripLeadOnly k := by
  by_cases hp : modelDotChars.isPrefixOf k
  · obtain ⟨rest, hrest⟩ : ∃ t, modelDotChars ++ t = k := List.isPrefixOf_iff_prefix.1 hp
    subst hrest
    rw [stripLeadOnly, if_pos hp] at h ⊢
    have hd : (modelDotChars ++ rest).drop 6 = rest := by
      rw [show (6 : ℕ) = modelDotChars.length from rfl, List.drop_left]
    rw [hd] at h ⊢
    rw [stripModelAll_append_pat]
    exact stripModelAll_of_not_hasModelDot rest h
  · rw [stripLeadOnly, if_neg hp] at h ⊢
    exact stripModelAll_of_not_hasModelDot k h

/-- C8 (amended): whenever `"model."` occurs in a key only as a leading
prefix, the renaming performed by `load_pretrained` is exactly prefix
stripping with the value untouched. -/
theorem C8_rename_agrees_with_prefix_strip {V : Type} (sd : List (List Char × V))
    (h : ∀ e ∈ sd, hasModelDot (stripLeadOnly e.1) = false) :
    renameStateDict sd = sd.map fun e => (stripLeadOnly e.1, e.2) := by
  rw [renameStateDict]
  refine List.map_congr_left fun e he => ?_
  rw [stripModelAll_eq_stripLeadOnly e.1 (h e he)]

/-- Witness for the amended C8 on a typical checkpoint entry. -/
theorem C8_rename_agrees_with_prefix_strip_witness :
    renameStateDict [(("model.encoder.weight".toList), (0 : ℕ)), (("bias".toList), 1)] =
      [(("model.encoder.weight".toList), (0 : ℕ)), (("bias".toList), 1)].map
        fun e => (stripLeadOnly e.1, e.2) :=
  C8_rename_agrees_with_prefix_strip _ (by decide)

/-- C8 (counterexample): `k.replace('model.', '')` removes interior
occurrences too, so on the key `"model.head.model.weight"` the code
produces `"head.weight"` while prefix stripping would leave
`"head.model.weight"`. -/
theorem C8_replace_is_not_prefix_strip :
    stripModelAll ("model.head.model.weight".toList) = ("head.weight".toList) ∧
    stripLeadOnly ("model.head.model.weight".toList) = ("head.model.weight".toList) ∧
    stripModelAll ("model.head.model.weight".toList)
      ≠ stripLeadOnly ("model.head.model.weight".toList) := by
  refine ⟨by decide, by decide, by decide⟩

/-- C9 (counterexample): in joint multi-position loading the
`norm_2d = True` flag is overridden and per-channel normalisation is
applied, not the global normalisation the claim requires. -/
theorem C9_joint_ignores_norm2d_flag :
    appliedNormMode true true ≠ claimedNormMode true ∧
    appliedNormMode true true = NormMode.perChannel := by
  refine ⟨by decide, by decide⟩

/-- C9 (amended): in single-position loading the flag dispatches as
claimed (global over time and channel when set, per channel over time
otherwise); the joint branch always applies per-channel normalisation;
and the applied normalisations do produce zero mean over the axes they
normalise (whenever the variance is nonzero, so the division is by a
nonzero standard deviation). -/
theorem C9_normalisation_dispatch :
    (∀ f : Bool, appliedNormMode false f = claimedNormMode f) ∧
    (∀ f : Bool, appliedNormMode true f = NormMode.perChannel) ∧
    (∀ (text : ℕ) (x : V2) (c : ℕ), 0 < text → chVar text x c ≠ 0 →
      (∑ t ∈ Finset.range text, normPerChannelV text x t c) = 0) ∧
    (∀ (text cext : ℕ) (x : V2), 0 < text → 0 < cext → gVar text cext x ≠ 0 →
      (∑ t ∈ Finset.range text, ∑ c ∈ Finset.range cext, normGlobalV text cext x t c) = 0) := by
  refine ⟨by decide, by decide, ?_, ?_⟩
  · intro text x c htext _hv
    have ht : (text : ℝ) ≠ 0 := Nat.cast_ne_zero.2 htext.ne'
    have hz : ∑ t ∈ Finset.range text, (x t c - chMean text x c) = 0 := by
      rw [Finset.sum_sub_distrib, Finset.sum_const, Finset.card_range, nsmul_eq_mul, chMean,
        mul_div_cancel₀ _ ht, sub_self]
    calc ∑ t ∈ Finset.range text, normPerChannelV text x t c
        = (∑ t ∈ Finset.range text, (x t c - chMean text x c)) /
            Real.sqrt (chVar text x c) := by
          rw [Finset.sum_div]
          rfl
      _ = 0 := by rw [hz, zero_div]
  · intro text cext x htext hcext _hv
    have ht : ((text : ℝ) * cext) ≠ 0 := by
      have h1 : (text : ℝ) ≠ 0 := Nat.cast_ne_zero.2 htext.ne'
      have h2 : (cext : ℝ) ≠ 0 := Nat.cast_ne_zero.2 hcext.ne'
      exact mul_ne_zero h1 h2
    have hz : ∑ t ∈ Finset.range text, ∑ c ∈ Finset.range cext,
        (x t c - gMean text cext x) = 0 := by
      have : ∑ t ∈ Finset.range text, ∑ c ∈ Finset.range cext, (x t c - gMean text cext x)
          = (∑ t ∈ Finset.range text, ∑ c ∈ Finset.range cext, x t c)
            - (text * cext) * gMean text cext x := by
        rw [← Finset.sum_product', ← Finset.sum_product', Finset.sum_sub_distrib,
          Finset.sum_const, Finset.card_product, Finset.card_range, Finset.card_range,
          nsmul_eq_mul]
        push_cast
        ring
      rw [this, gMean, mul_div_cancel₀ _ ht, sub_self]
    calc ∑ t ∈ Finset.range text, ∑ c ∈ Finset.range cext, normGlobalV text cext x t c
        = (∑ t ∈ Finset.range text, ∑ c ∈ Finset.range cext,
            (x t c - gMean text cext x)) / Real.sqrt (gVar text cext x) := by
          rw [Finset.sum_div]
          refine Finset.sum_congr rfl fun t _ => ?_
          rw [Finset.sum_div]
          rfl
      _ = 0 := by rw [hz, zero_div]

/-- Witness for the amended C9 at a concrete two-timepoint sample with
nonzero variance. -/
theorem C9_normalisation_dispatch_witness :
    (∑ t ∈ Finset.range 2, normPerChannelV 2 (fun t _ => if t = 0 then 0 else 2) t 0) = 0 ∧
    (∑ t ∈ Finset.range 2, ∑ c ∈ Finset.range 1,
      normGlobalV 2 1 (fun t _ => if t = 0 then 0 else 2) t c) = 0 := by
  constructor
  · refine C9_normalisation_dispatch.2.2.1 2 (fun t _ => if t = 0 then 0 else 2) 0 (by decide) ?_
    rw [chVar, chMean]
    norm_num [Finset.sum_range_succ]
  · refine C9_normalisation_dispatch.2.2.2 2 1 (fun t _ => if t = 0 then 0 else 2)
      (by decide) (by decide) ?_
    rw [gVar, gMean]
    norm_num [Finset.sum_range_succ]

/-- C7 (counterexample): a sequence length of 5001 is not divisible by
`2^3` (the default stage count), yet construction succeeds — nothing is
rejected at configuration time. -/
theorem C7_construction_accepts_indivisible_seq_len :
    ¬ (2 ^ ({ inChannels := 21, seqLen := 5001 } : PNetCfg).hiddenChannels.length ∣ 5001) ∧
    pnetConstructS { inChannels := 21, seqLen := 5001 } =
      some { inChannels := 21, seqLen := 5001 } := by
  refine ⟨by decide, rfl⟩

/-- C4 (counterexample): `T = 0` is divisible by `2^k`, but the stacked
encoder/decoder pipeline fails there (the first convolution rejects a
kernel larger than the padded input) instead of returning to time
extent `T`. -/
theorem C4_zero_time_counterexample :
    (2 ^ ([64] : List ℕ).length ∣ 0) ∧ encDecS 8 5 [64] [1, 8, 0] = none := by
  refine ⟨Dvd.intro 0 rfl, by decide⟩

/-- Same-padding convolution shape: an odd kernel preserves the length. -/
theorem conv1dS_same (o kern n c t : ℕ) (hk : kern % 2 = 1) (ht : 1 ≤ t) :
    conv1dS c o kern (kern / 2) [n, c, t] = some [n, o, t] := by
  have h1 : kern ≤ t + 2 * (kern / 2) := by omega
  have hlen : t + 2 * (kern / 2) + 1 - kern = t := by omega
  simp [conv1dS, h1, hlen]

/-- EncoderBlock shape on a matching input of even positive length. -/
theorem encBlockS_run (cin cout kern n t : ℕ) (hk : kern % 2 = 1) (ht : 2 ≤ t) :
    encBlockS cin cout kern [n, cin, t] = some ([n, cout, t / 2], [n, cout, t]) := by
  simp [encBlockS, conv1dS_same cout kern n cin t hk (by omega),
    conv1dS_same cout kern n cout t hk (by omega), bn1dS, pool2S, ht]

/-- Encoder-loop shape: with `2^k` dividing the positive length `t`, the
loop returns the last schedule width at length `t / 2^k` together with
the skip shapes. -/
theorem encLoopS_run :
    ∀ (cs : List ℕ) (c0 kern n t : ℕ), kern % 2 = 1 → 0 < t → 2 ^ cs.length ∣ t →
      encLoopS kern c0 cs [n, c0, t]
        = some ([n, cs.getLastD c0, t / 2 ^ cs.length], skipsShapes n cs t)
  | [], c0, kern, n, t, _, _, _ => by simp [encLoopS, skipsShapes]
  | c :: cs, c0, kern, n, t, hk, ht, hd => by
    have hpow : 0 < 2 ^ (c :: cs).length := Nat.pos_pow_of_pos _ (by omega)
    have h2t : 2 ≤ t := by
      have := Nat.le_of_dvd ht hd
      have h2 : 2 ≤ 2 ^ (c :: cs).length := by
        have : (c :: cs).length = cs.length + 1 := rfl
        rw [this, pow_succ]
        have : 1 ≤ 2 ^ cs.length := Nat.one_le_two_pow
        omega
      omega
    have hd2 : 2 ^ cs.length ∣ t / 2 := by
      obtain ⟨m, rfl⟩ := hd
      rw [List.length_cons, pow_succ] at *
      rw [show 2 ^ cs.length * 2 * m = 2 ^ cs.length * m * 2 by ring, Nat.mul_div_cancel _ (by omega)]
      exact Dvd.intro m rfl
    have hpos2 : 0 < t / 2 := Nat.div_pos h2t (by omega)
    have hdiv : t / 2 / 2 ^ cs.length = t / 2 ^ (c :: cs).length := by
      rw [Nat.div_div_eq_div_mul, List.length_cons, pow_succ, Nat.mul_comm]
    rw [encLoopS, encBlockS_run c0 c kern n t hk h2t]
    simp only [Option.bind_eq_bind, Option.some_bind]
    rw [encLoopS_run cs c kern n (t / 2) hk hpos2 hd2]
    simp only [Option.some_bind, Option.pure_def]
    rw [hdiv]
    simp only [skipsShapes, List.getLastD_cons]

/-- DecoderBlock shape on the matching skip (double length, equal
channels). -/
theorem decBlockS_run (d e kern n t : ℕ) (hk : kern % 2 = 1) (ht : 1 ≤ t) :
    decBlockS d e kern [n, d, t] [n, d, 2 * t] = some [n, e, 2 * t] := by
  have h1 : tconv2S d [n, d, t] = some [n, d, 2 * t] := by
    simp [tconv2S, ht]
  have hcat : catDim1S [n, d, 2 * t] [n, d, 2 * t] = some [n, d + d, 2 * t] := by
    simp [catDim1S]
  have hconv1 : conv1dS (d * 2) d kern (kern / 2) [n, d + d, 2 * t] = some [n, d, 2 * t] := by
    have hc : d + d = d * 2 := by ring
    have h1 : kern ≤ 2 * t + 2 * (kern / 2) := by omega
    have hlen : 2 * t + 2 * (kern / 2) + 1 - kern = 2 * t := by omega
    simp [conv1dS, hc, h1, hlen]
  have hbn1 : bn1dS d [n, d, 2 * t] = some [n, d, 2 * t] := by simp [bn1dS]
  have hconv2 : conv1dS d e kern (kern / 2) [n, d, 2 * t] = some [n, e, 2 * t] :=
    conv1dS_same e kern n d (2 * t) hk (by omega)
  have hbn2 : bn1dS e [n, e, 2 * t] = some [n, e, 2 * t] := by simp [bn1dS]
  rw [decBlockS, h1]
  simp only [Option.bind_eq_bind, Option.some_bind]
  rw [hcat]
  simp only [Option.some_bind]
  rw [hconv1]
  simp only [Option.some_bind]
  rw [hbn1]
  simp only [Option.some_bind]
  rw [hconv2]
  simp only [Option.some_bind]
  exact hbn2

/-- Decoder-loop shape along a channel chain with doubling skips. -/
theorem decLoopS_run :
    ∀ (dr : List ℕ) (d t n kern : ℕ), kern % 2 = 1 → 1 ≤ t →
      decLoopS kern (chainPairs d (dr ++ [32])) [n, d, t] (stepSkips n (d :: dr) (2 * t))
        = some [n, 32, 2 ^ (dr.length + 1) * t]
  | [], d, t, n, kern, hk, ht => by
    simp only [List.nil_append, chainPairs, stepSkips, decLoopS]
    rw [decBlockS_run d 32 kern n t hk ht]
    simp only [Option.bind_eq_bind, Option.some_bind, decLoopS]
    norm_num
  | e :: dr, d, t, n, kern, hk, ht => by
    have hch : chainPairs d ((e :: dr) ++ [32]) = (d, e) :: chainPairs e (dr ++ [32]) := rfl
    have hskip : stepSkips n (d :: e :: dr) (2 * t)
        = [n, d, 2 * t] :: stepSkips n (e :: dr) (2 * (2 * t)) := rfl
    rw [hch, hskip]
    simp only [decLoopS]
    rw [decBlockS_run d e kern n t hk ht]
    simp only [Option.bind_eq_bind, Option.some_bind]
    rw [decLoopS_run dr e (2 * t) n kern hk (by omega)]
    have : 2 ^ (dr.length + 1) * (2 * t) = 2 ^ ((e :: dr).length + 1) * t := by
      rw [List.length_cons]
      ring
    rw [this]

/-- Appending one channel to the walked list appends one skip shape. -/
theorem stepSkips_append (n : ℕ) :
    ∀ (l : List ℕ) (c t : ℕ),
      stepSkips n (l ++ [c]) t = stepSkips n l t ++ [[n, c, 2 ^ l.length * t]]
  | [], c, t => by simp [stepSkips]
  | e :: l, c, t => by
    rw [List.cons_append, stepSkips, stepSkips, stepSkips_append n l c (2 * t)]
    simp only [List.length_cons, List.cons_append, List.cons.injEq, true_and]
    congr 3
    ring

/-- The reversed encoder skip stack is exactly the doubling-skip list the
decoder walks, when the length is divisible by `2^k`. -/
theorem skipsShapes_reverse (n : ℕ) :
    ∀ (cs : List ℕ) (t : ℕ), 2 ^ cs.length ∣ t →
      (skipsShapes n cs t).reverse = stepSkips n cs.reverse (2 * (t / 2 ^ cs.length))
  | [], t, _ => by simp [skipsShapes, stepSkips]
  | c :: cs, t, hd => by
    have hd2 : 2 ^ cs.length ∣ t / 2 := by
      obtain ⟨m, rfl⟩ := hd
      rw [List.length_cons, pow_succ] at *
      rw [show 2 ^ cs.length * 2 * m = 2 ^ cs.length * m * 2 by ring,
        Nat.mul_div_cancel _ (by omega)]
      exact Dvd.intro m rfl
    have hdiv : t / 2 / 2 ^ cs.length = t / 2 ^ (c :: cs).length := by
      rw [Nat.div_div_eq_div_mul, List.length_cons, pow_succ, Nat.mul_comm]
    have htau : 2 ^ cs.reverse.length * (2 * (t / 2 ^ (c :: cs).length)) = t := by
      rw [List.length_reverse,
        show 2 ^ cs.length * (2 * (t / 2 ^ (c :: cs).length))
          = 2 ^ (c :: cs).length * (t / 2 ^ (c :: cs).length) by
            rw [List.length_cons, pow_succ]; ring,
        Nat.mul_div_cancel' hd]
    rw [skipsShapes, List.reverse_cons, skipsShapes_reverse n cs (t / 2) hd2, hdiv,
      List.reverse_cons, stepSkips_append, htau]

/-- C4 (amended): for every `(N, C, T)` input with `T` positive and
divisible by `2^k`, the `k` encoder blocks followed by the `k` matching
decoder blocks (skips consumed in reverse creation order) return to time
extent exactly `T`. -/
theorem C4_encoder_decoder_time_symmetry (n c0 kern : ℕ) (cs : List ℕ) (t : ℕ)
    (hk : kern % 2 = 1) (ht : 0 < t) (hd : 2 ^ cs.length ∣ t) :
    ∃ co, encDecS c0 kern cs [n, c0, t] = some [n, co, t] := by
  cases cs with
  | nil =>
    refine ⟨c0, ?_⟩
    simp [encDecS, encLoopS, chainPairs, decLoopS, skipsShapes]
  | cons c cs' =>
    refine ⟨32, ?_⟩
    have hk' := encLoopS_run (c :: cs') c0 kern n t hk ht hd
    rw [encDecS, hk']
    simp only [Option.bind_eq_bind, Option.some_bind]
    obtain ⟨d, dr, hcr⟩ : ∃ d dr, (c :: cs').reverse = d :: dr := by
      cases hrev : (c :: cs').reverse with
      | nil => exact absurd hrev (by simp)
      | cons d dr => exact ⟨d, dr, rfl⟩
    have hlast : (c :: cs').getLastD c0 = d := by
      rw [List.getLastD_eq_getLast?, List.getLast?_eq_head?_reverse, hcr]
      rfl
    have hskips := skipsShapes_reverse n (c :: cs') t hd
    rw [hcr] at hskips
    have hdrop : (((c :: cs').reverse ++ [32]).drop 1) = dr ++ [32] := by
      rw [hcr]
      rfl
    have hpos : 1 ≤ t / 2 ^ (c :: cs').length := by
      have := Nat.le_of_dvd ht hd
      exact Nat.one_le_div_iff (Nat.pos_pow_of_pos _ (by omega)) |>.2 this
    have hlen : dr.length + 1 = (c :: cs').length := by
      have : (d :: dr).length = (c :: cs').length := by rw [← hcr, List.length_reverse]
      simpa using this
    rw [hlast, hdrop, hskips, decLoopS_run dr d (t / 2 ^ (c :: cs').length) n kern hk hpos,
      hlen, Nat.mul_div_cancel' hd]

/-- Witness for the amended C4 at the end-to-end configuration. -/
theorem C4_encoder_decoder_time_symmetry_witness :
    ∃ co, encDecS 8 5 [64, 128, 256] [16, 8, 5000] = some [16, co, 5000] :=
  C4_encoder_decoder_time_symmetry 16 8 5 [64, 128, 256] 5000 (by decide) (by decide) (by decide)

/-- Inversion of a successful 1-d convolution shape. -/
theorem conv1dS_some_inv (inC outC kern pad n c t : ℕ) (a : Shp)
    (h : conv1dS inC outC kern pad [n, c, t] = some a) :
    c = inC ∧ kern ≤ t + 2 * pad ∧ a = [n, outC, t + 2 * pad + 1 - kern] := by
  simp only [conv1dS] at h
  by_cases hc : c = inC ∧ kern ≤ t + 2 * pad
  · rw [if_pos hc] at h
    exact ⟨hc.1, hc.2, (Option.some_inj.1 h).symm⟩
  · rw [if_neg hc] at h
    exact absurd h (by simp)

/-- Inversion of a successful 1-d batch-norm shape. -/
theorem bn1dS_some_inv (ch n c t : ℕ) (a : Shp) (h : bn1dS ch [n, c, t] = some a) :
    c = ch ∧ a = [n, c, t] := by
  simp only [bn1dS] at h
  by_cases hc : c = ch
  · rw [if_pos hc] at h
    exact ⟨hc, (Option.some_inj.1 h).symm⟩
  · rw [if_neg hc] at h
    exact absurd h (by simp)

/-- Inversion of a successful max-pool shape. -/
theorem pool2S_some_inv (n c t : ℕ) (a : Shp) (h : pool2S [n, c, t] = some a) :
    2 ≤ t ∧ a = [n, c, t / 2] := by
  simp only [pool2S] at h
  by_cases hc : 2 ≤ t
  · rw [if_pos hc] at h
    exact ⟨hc, (Option.some_inj.1 h).symm⟩
  · rw [if_neg hc] at h
    exact absurd h (by simp)

/-- Inversion of a successful EncoderBlock shape. -/
theorem encBlockS_some_inv (cin cout kern n c t : ℕ) (p f : Shp) (hk : kern % 2 = 1)
    (h : encBlockS cin cout kern [n, c, t] = some (p, f)) :
    c = cin ∧ 2 ≤ t ∧ p = [n, cout, t / 2] ∧ f = [n, cout, t] := by
  simp only [encBlockS, Option.bind_eq_bind, Option.bind_eq_some] at h
  obtain ⟨a1, ha1, h⟩ := h
  obtain ⟨hc, hkle, rfl⟩ := conv1dS_some_inv cin cout kern (kern / 2) n c t a1 ha1
  have hlen : t + 2 * (kern / 2) + 1 - kern = t := by omega
  rw [hlen] at h
  obtain ⟨a2, ha2, h⟩ := h
  obtain ⟨-, rfl⟩ := bn1dS_some_inv cout n cout t a2 ha2
  obtain ⟨a3, ha3, h⟩ := h
  obtain ⟨-, -, rfl⟩ := conv1dS_some_inv cout cout kern (kern / 2) n cout t a3 ha3
  rw [hlen] at h
  obtain ⟨a4, ha4, h⟩ := h
  obtain ⟨-, rfl⟩ := bn1dS_some_inv cout n cout t a4 ha4
  obtain ⟨a5, ha5, h⟩ := h
  obtain ⟨h2t, rfl⟩ := pool2S_some_inv n cout t a5 ha5
  simp only [Option.pure_def, Option.some_inj, Prod.mk.injEq] at h
  obtain ⟨rfl, rfl⟩ := h
  exact ⟨hc, h2t, rfl, rfl⟩

/-- Inversion of a successful encoder loop: the channel schedule is
forced, the time extents halve (with floor), and the skip shapes are
determined. -/
theorem encLoopS_some_inv :
    ∀ (cs : List ℕ) (cin kern n c t : ℕ) (out : Shp) (skips : List Shp),
      kern % 2 = 1 → encLoopS kern cin cs [n, c, t] = some (out, skips) →
      out = [n, cs.getLastD c, t / 2 ^ cs.length] ∧ skips = skipsShapes n cs t
  | [], cin, kern, n, c, t, out, skips, _, h => by
    simp only [encLoopS, Option.some_inj, Prod.mk.injEq] at h
    obtain ⟨rfl, rfl⟩ := h
    simp [skipsShapes]
  | c' :: cs, cin, kern, n, c, t, out, skips, hk, h => by
    simp only [encLoopS, Option.bind_eq_bind, Option.bind_eq_some] at h
    obtain ⟨p, hp, h⟩ := h
    obtain ⟨p1, p2⟩ := p
    dsimp only at h
    obtain ⟨-, h2t, hp1, hp2⟩ := encBlockS_some_inv cin c' kern n c t p1 p2 hk hp
    subst hp1
    subst hp2
    obtain ⟨q, hq, h⟩ := h
    obtain ⟨q1, q2⟩ := q
    dsimp only at h
    obtain ⟨hout, hskips⟩ :=
      encLoopS_some_inv cs c' kern n c' (t / 2) q1 q2 hk hq
    subst hout
    subst hskips
    simp only [Option.pure_def, Option.some_inj, Prod.mk.injEq] at h
    obtain ⟨rfl, rfl⟩ := h
    refine ⟨?_, rfl⟩
    have hdiv : t / 2 / 2 ^ cs.length = t / 2 ^ (c' :: cs).length := by
      rw [Nat.div_div_eq_div_mul, List.length_cons, pow_succ, Nat.mul_comm]
    rw [List.getLastD_cons, hdiv]

/-- Inversion of a successful bottleneck-LSTM shape. -/
theorem lstmS_some_inv (a b n c t : ℕ) (u : Shp) (h : lstmS a b [n, c, t] = some u) :
    c = a ∧ u = [n, 2 * b, t] := by
  simp only [lstmS] at h
  by_cases hc : c = a
  · rw [if_pos hc] at h
    exact ⟨hc, (Option.some_inj.1 h).symm⟩
  · rw [if_neg hc] at h
    exact absurd h (by simp)

/-- Inversion of a successful transposed-convolution shape. -/
theorem tconv2S_some_inv (inC n c t : ℕ) (a : Shp) (h : tconv2S inC [n, c, t] = some a) :
    c = inC ∧ 1 ≤ t ∧ a = [n, inC, 2 * t] := by
  simp only [tconv2S] at h
  by_cases hc : c = inC ∧ 1 ≤ t
  · rw [if_pos hc] at h
    exact ⟨hc.1, hc.2, (Option.some_inj.1 h).symm⟩
  · rw [if_neg hc] at h
    exact absurd h (by simp)

/-- Inversion of a successful rank-3 concatenation: the second tensor is
forced to share the batch and time extents. -/
theorem catDim1S_some_inv (n c l : ℕ) (r : Shp) (a : Shp)
    (h : catDim1S [n, c, l] r = some a) :
    ∃ rc, r = [n, rc, l] ∧ a = [n, c + rc, l] := by
  rcases r with - | ⟨r1, - | ⟨r2, - | ⟨r3, - | ⟨r4, rr⟩⟩⟩⟩
  · exact absurd h (by simp [catDim1S])
  · exact absurd h (by simp [catDim1S])
  · exact absurd h (by simp [catDim1S])
  · simp only [catDim1S] at h
    by_cases hc : n = r1 ∧ l = r3
    · rw [if_pos hc] at h
      exact ⟨r2, by rw [hc.1, hc.2], (Option.some_inj.1 h).symm⟩
    · rw [if_neg hc] at h
      exact absurd h (by simp)
  · exact absurd h (by simp [catDim1S])

/-- Inversion of a successful DecoderBlock shape: the skip tensor must
have exactly twice the input's time extent. -/
theorem decBlockS_some_inv (i o kern n c t : ℕ) (r y : Shp) (hk : kern % 2 = 1)
    (h : decBlockS i o kern [n, c, t] r = some y) :
    c = i ∧ 1 ≤ t ∧ (∃ rc, r = [n, rc, 2 * t]) ∧ y = [n, o, 2 * t] := by
  simp only [decBlockS, Option.bind_eq_bind, Option.bind_eq_some] at h
  obtain ⟨u, hu, h⟩ := h
  obtain ⟨rfl, ht, rfl⟩ := tconv2S_some_inv i n c t u hu
  obtain ⟨ct, hct, h⟩ := h
  obtain ⟨rc, rfl, rfl⟩ := catDim1S_some_inv n c (2 * t) r ct hct
  obtain ⟨a1, ha1, h⟩ := h
  obtain ⟨hcc, -, rfl⟩ := conv1dS_some_inv (c * 2) c kern (kern / 2) n (c + rc) (2 * t) a1 ha1
  have hlen : 2 * t + 2 * (kern / 2) + 1 - kern = 2 * t := by omega
  rw [hlen] at h
  obtain ⟨a2, ha2, h⟩ := h
  obtain ⟨-, rfl⟩ := bn1dS_some_inv c n c (2 * t) a2 ha2
  obtain ⟨a3, ha3, h⟩ := h
  obtain ⟨-, -, rfl⟩ := conv1dS_some_inv c o kern (kern / 2) n c (2 * t) a3 ha3
  rw [hlen] at h
  obtain ⟨-, hy⟩ := bn1dS_some_inv o n o (2 * t) y h
  exact ⟨rfl, ht, ⟨rc, rfl⟩, hy⟩

/-- A successful decoder loop over equally long block and skip lists
forces the last skip's time extent to be `2^k` times the input's. -/
theorem decLoopS_forces :
    ∀ (rs : List Shp) (ds : List (ℕ × ℕ)) (n c t kern : ℕ) (out : Shp),
      kern % 2 = 1 → ds.length = rs.length →
      decLoopS kern ds [n, c, t] rs = some out →
      rs = [] ∨ ∃ a b, rs.getLast? = some [a, b, 2 ^ rs.length * t]
  | [], _, _, _, _, _, _, _, _, _ => Or.inl rfl
  | r :: rs', ds, n, c, t, kern, out, hk, hlen, h => by
    right
    rcases ds with - | ⟨⟨d1, d2⟩, ds'⟩
    · exact absurd hlen (by simp)
    simp only [decLoopS, Option.bind_eq_bind, Option.bind_eq_some] at h
    obtain ⟨y, hy, h⟩ := h
    obtain ⟨rfl, ht, ⟨rc, rfl⟩, rfl⟩ := decBlockS_some_inv d1 d2 kern n c t r y hk hy
    rcases rs' with - | ⟨r2, rs''⟩
    · refine ⟨n, rc, ?_⟩
      simp [pow_succ]
    · have hlen' : ds'.length = (r2 :: rs'').length := by simpa using hlen
      have := decLoopS_forces (r2 :: rs'') ds' n d2 (2 * t) kern out hk hlen' h
      rcases this with h0 | ⟨a, b, hl⟩
      · exact absurd h0 (by simp)
      · refine ⟨a, b, ?_⟩
        rw [List.getLast?_cons_cons, hl]
        congr 2
        simp only [List.length_cons, pow_succ]
        ring

/-- Length of a channel chain. -/
theorem chainPairs_length : ∀ (c : ℕ) (l : List ℕ), (chainPairs c l).length = l.length
  | _, [] => rfl
  | c, d :: ds => by simp [chainPairs, chainPairs_length d ds]

/-- Length of the skip-shape list. -/
theorem skipsShapes_length (n : ℕ) :
    ∀ (cs : List ℕ) (t : ℕ), (skipsShapes n cs t).length = cs.length
  | [], _ => rfl
  | c :: cs, t => by simp [skipsShapes, skipsShapes_length n cs (t / 2)]

/-- Inversion of a successful 2-d convolution shape. -/
theorem conv2dS_some_inv (inC outC kh kw ph pw n c hh ww : ℕ) (a : Shp)
    (h : conv2dS inC outC kh kw ph pw [n, c, hh, ww] = some a) :
    c = inC ∧ kh ≤ hh + 2 * ph ∧ kw ≤ ww + 2 * pw ∧
      a = [n, outC, hh + 2 * ph + 1 - kh, ww + 2 * pw + 1 - kw] := by
  simp only [conv2dS] at h
  by_cases hc : c = inC ∧ kh ≤ hh + 2 * ph ∧ kw ≤ ww + 2 * pw
  · rw [if_pos hc] at h
    exact ⟨hc.1, hc.2.1, hc.2.2, (Option.some_inj.1 h).symm⟩
  · rw [if_neg hc] at h
    exact absurd h (by simp)

/-- Inversion of a successful 2-d batch-norm shape. -/
theorem bn2dS_some_inv (ch n c hh ww : ℕ) (a : Shp) (h : bn2dS ch [n, c, hh, ww] = some a) :
    c = ch ∧ a = [n, c, hh, ww] := by
  simp only [bn2dS] at h
  by_cases hc : c = ch
  · rw [if_pos hc] at h
    exact ⟨hc, (Option.some_inj.1 h).symm⟩
  · rw [if_neg hc] at h
    exact absurd h (by simp)

/-- Inversion of a successful top-k shape. -/
theorem topkDim2S_some_inv (k n c hh ww : ℕ) (a : Shp)
    (h : topkDim2S k [n, c, hh, ww] = some a) : k ≤ hh ∧ a = [n, c, k, ww] := by
  simp only [topkDim2S] at h
  by_cases hc : k ≤ hh
  · rw [if_pos hc] at h
    exact ⟨hc, (Option.some_inj.1 h).symm⟩
  · rw [if_neg hc] at h
    exact absurd h (by simp)

/-- Inversion of a successful spatial-reduction shape: the time extent is
preserved and the spatial extent becomes the reduction target. -/
theorem sprS_some_inv (r n sp t : ℕ) (u : Shp) (h : sprS r [n, sp, t] = some u) :
    u = [n, r, t] := by
  simp only [sprS, Option.bind_eq_bind, Option.bind_eq_some] at h
  obtain ⟨a1, ha1, h⟩ := h
  obtain ⟨-, h5, h7, rfl⟩ := conv2dS_some_inv 1 16 5 7 2 3 n 1 sp t a1 ha1
  have e1 : sp + 2 * 2 + 1 - 5 = sp := by omega
  have e2 : t + 2 * 3 + 1 - 7 = t := by omega
  rw [e1, e2] at h
  obtain ⟨a2, ha2, h⟩ := h
  obtain ⟨-, rfl⟩ := bn2dS_some_inv 16 n 16 sp t a2 ha2
  obtain ⟨a3, ha3, h⟩ := h
  obtain ⟨-, -, -, rfl⟩ := conv2dS_some_inv 16 16 5 7 2 3 n 16 sp t a3 ha3
  rw [e1, e2] at h
  obtain ⟨a4, ha4, h⟩ := h
  obtain ⟨-, rfl⟩ := bn2dS_some_inv 16 n 16 sp t a4 ha4
  obtain ⟨a5, ha5, h⟩ := h
  obtain ⟨-, rfl⟩ := topkDim2S_some_inv r n 16 sp t a5 ha5
  obtain ⟨a6, ha6, h⟩ := h
  obtain ⟨-, -, -, rfl⟩ := conv2dS_some_inv 16 1 1 1 0 0 n 16 r t a6 ha6
  have e3 : r + 2 * 0 + 1 - 1 = r := by omega
  have e4 : t + 2 * 0 + 1 - 1 = t := by omega
  rw [e3, e4] at h
  have h2 : (if (1 : ℕ) = 1 then some [n, r, t] else some ([n, 1, r, t] : Shp)) = some u := h
  rw [if_pos rfl] at h2
  exact (Option.some_inj.1 h2).symm

/-- A successful decoder stage of `PulseDetectionNet.forward` forces the
sequence length to be divisible by `2^k`. -/
theorem decStage_dvd (cfg : PNetCfg) (n cb : ℕ) (d2 : Shp)
    (hk : cfg.kernelSize % 2 = 1) (hk1 : 1 ≤ cfg.hiddenChannels.length)
    (hdec : decLoopS cfg.kernelSize (decoderPairsC cfg)
      [n, cb, cfg.seqLen / 2 ^ cfg.hiddenChannels.length]
      (skipsShapes n cfg.hiddenChannels cfg.seqLen).reverse = some d2) :
    2 ^ cfg.hiddenChannels.length ∣ cfg.seqLen := by
  have hlens : (decoderPairsC cfg).length
      = ((skipsShapes n cfg.hiddenChannels cfg.seqLen).reverse).length := by
    rw [List.length_reverse, skipsShapes_length, decoderPairsC, chainPairs_length]
    simp
  have hforce := decLoopS_forces ((skipsShapes n cfg.hiddenChannels cfg.seqLen).reverse)
    (decoderPairsC cfg) n cb (cfg.seqLen / 2 ^ cfg.hiddenChannels.length)
    cfg.kernelSize d2 hk hlens hdec
  rcases hforce with hnil | ⟨a2, b2, hlast⟩
  · have h0 : (skipsShapes n cfg.hiddenChannels cfg.seqLen).length = 0 := by
      rw [← List.length_reverse, hnil]
      rfl
    rw [skipsShapes_length] at h0
    omega
  · cases hcs : cfg.hiddenChannels with
    | nil => rw [hcs] at hk1; simp at hk1
    | cons c1 cs' =>
      have hhead : ((skipsShapes n cfg.hiddenChannels cfg.seqLen).reverse).getLast?
          = some [n, c1, cfg.seqLen] := by
        rw [List.getLast?_eq_head?_reverse, List.reverse_reverse, hcs, skipsShapes]
        rfl
      have hllen : ((skipsShapes n cfg.hiddenChannels cfg.seqLen).reverse).length
          = cfg.hiddenChannels.length := by
        rw [List.length_reverse, skipsShapes_length]
      rw [hhead, hllen] at hlast
      simp only [Option.some_inj, List.cons.injEq, and_true] at hlast
      obtain ⟨-, -, hT⟩ := hlast
      rw [← hcs]
      exact ⟨cfg.seqLen / 2 ^ cfg.hiddenChannels.length, hT⟩

/-- C7 (amended): a target sequence length not divisible by `2^k` is not
rejected at construction; instead the forward pass itself fails — the
decoder stage's concatenation cannot match the skip extents (or an
earlier stage already rejects the input). -/
theorem C7_indivisible_seq_len_fails_at_forward (cfg : PNetCfg) (n c : ℕ)
    (hk : cfg.kernelSize % 2 = 1)
    (hnd : ¬ (2 ^ cfg.hiddenChannels.length ∣ cfg.seqLen)) :
    pnetForwardS cfg [n, cfg.seqLen, c] = none := by
  by_contra hne
  obtain ⟨y, hy⟩ := Option.ne_none_iff_exists'.1 hne
  simp only [pnetForwardS, Option.bind_eq_bind, Option.bind_eq_some] at hy
  obtain ⟨a, ha, hy⟩ := hy
  have ha' := sprS_some_inv cfg.reduceChannels n c cfg.seqLen a ha
  subst ha'
  obtain ⟨p, hp, hy⟩ := hy
  obtain ⟨x1, skips⟩ := p
  dsimp only at hy
  obtain ⟨hx1, hskips⟩ := encLoopS_some_inv cfg.hiddenChannels cfg.reduceChannels
    cfg.kernelSize n cfg.reduceChannels cfg.seqLen x1 skips hk hp
  subst hx1
  subst hskips
  have hk1 : 1 ≤ cfg.hiddenChannels.length := by
    by_contra hk0
    have h0 : cfg.hiddenChannels.length = 0 := by omega
    rw [h0] at hnd
    exact hnd (by simp)
  by_cases hL : cfg.useLstm = true
  · rw [if_pos hL] at hy
    simp only [Option.bind_eq_some] at hy
    obtain ⟨b, hb, hy⟩ := hy
    obtain ⟨-, rfl⟩ := lstmS_some_inv (cfg.hiddenChannels.getLastD 0) cfg.lstmHiddenSize
      n _ _ b hb
    obtain ⟨d2, hdec, -⟩ := hy
    exact hnd (decStage_dvd cfg n _ d2 hk hk1 hdec)
  · rw [if_neg hL] at hy
    simp only [Option.some_bind, Option.bind_eq_some] at hy
    obtain ⟨d2, hdec, -⟩ := hy
    exact hnd (decStage_dvd cfg n _ d2 hk hk1 hdec)

/-- Witness for the amended C7 at the source's default configuration with
sequence length 5001. -/
theorem C7_indivisible_seq_len_fails_at_forward_witness :
    pnetForwardS { inChannels := 21, seqLen := 5001 } [16, 5001, 21] = none :=
  C7_indivisible_seq_len_fails_at_forward { inChannels := 21, seqLen := 5001 } 16 21
    (by decide) (by decide)

/-- Reading a length-`k` list back off `List.range k` by positions. -/
theorem range_map_getD {α : Type} (l : List α) (d : α) (k : ℕ) (hl : l.length = k) :
    (List.range k).map (fun j => l.getD j d) = l := by
  refine List.ext_getElem (by simp [hl]) ?_
  intro i h1 h2
  rw [List.getElem_map, List.getElem_range]
  exact List.getD_eq_getElem l d h2

/-- Stable top-k characterisation of `topkVals`: the returned values are
read off a duplicate-free list of selected positions, every unselected
position holds a strictly smaller value or an equal value at a strictly
larger index. -/
theorem topkVals_stable_spec {α : Type} [LinearOrder α] (k : ℕ) (xs : List α) (d : α)
    (hk : k ≤ xs.length) :
    ∃ sel : List ℕ, sel.length = k ∧ sel.Nodup ∧ (∀ i ∈ sel, i < xs.length) ∧
      topkVals k xs = sel.map (fun i => xs.getD i d) ∧
      ∀ i ∈ sel, ∀ j, j < xs.length → j ∉ sel →
        xs.getD j d < xs.getD i d ∨ (xs.getD j d = xs.getD i d ∧ i < j) := by
  classical
  have hperm : List.Perm (xs.enum.insertionSort topkRel) xs.enum :=
    List.perm_insertionSort topkRel xs.enum
  have hsorted : List.Sorted topkRel (xs.enum.insertionSort topkRel) :=
    List.sorted_insertionSort topkRel xs.enum
  have hLlen : (xs.enum.insertionSort topkRel).length = xs.length := by
    rw [hperm.length_eq, List.enum_length]
  have hmemL : ∀ p ∈ xs.enum.insertionSort topkRel,
      p.1 < xs.length ∧ p.2 = xs.getD p.1 d := by
    intro p hp
    have hpe : p ∈ xs.enum := hperm.mem_iff.1 hp
    obtain ⟨hlt, hget⟩ := List.getElem?_eq_some_iff.1 (List.mem_enum_iff_getElem?.1 hpe)
    exact ⟨hlt, by rw [← hget]; exact (List.getD_eq_getElem xs d hlt).symm⟩
  refine ⟨((xs.enum.insertionSort topkRel).take k).map Prod.fst, ?_, ?_, ?_, ?_, ?_⟩
  · rw [List.length_map, List.length_take, hLlen]
    omega
  · rw [List.map_take]
    refine List.Nodup.sublist (List.take_sublist _ _) ?_
    refine ((hperm.map Prod.fst).nodup_iff).2 ?_
    rw [List.enum_map_fst]
    exact List.nodup_range _
  · intro i hi
    obtain ⟨p, hp, rfl⟩ := List.mem_map.1 hi
    exact (hmemL p (List.mem_of_mem_take hp)).1
  · rw [topkVals, List.map_map]
    refine List.map_congr_left fun p hp => ?_
    exact (hmemL p (List.mem_of_mem_take hp)).2
  · intro i hi j hj hjnot
    obtain ⟨p, hp, rfl⟩ := List.mem_map.1 hi
    have hpe := hmemL p (List.mem_of_mem_take hp)
    have hqe : (j, xs.getD j d) ∈ xs.enum := by
      rw [List.mem_enum_iff_getElem?]
      exact List.getElem?_eq_some_iff.2 ⟨hj, (List.getD_eq_getElem xs d hj).symm⟩
    have hqL : (j, xs.getD j d) ∈ xs.enum.insertionSort topkRel := hperm.mem_iff.2 hqe
    have hqdrop : (j, xs.getD j d) ∈ (xs.enum.insertionSort topkRel).drop k := by
      rw [← List.take_append_drop k (xs.enum.insertionSort topkRel)] at hqL
      rcases List.mem_append.1 hqL with hcase | hcase
      · exact absurd (List.mem_map.2 ⟨(j, xs.getD j d), hcase, rfl⟩) hjnot
      · exact hcase
    have hps : List.Pairwise topkRel
        ((xs.enum.insertionSort topkRel).take k ++ (xs.enum.insertionSort topkRel).drop k) := by
      rw [List.take_append_drop]
      exact hsorted
    have hrel : topkRel p (j, xs.getD j d) :=
      (List.pairwise_append.1 hps).2.2 p hp _ hqdrop
    rcases hrel with hcase | ⟨hcase, hle⟩
    · left
      exact hpe.2 ▸ hcase
    · right
      refine ⟨(hpe.2.symm.trans hcase).symm, ?_⟩
      have hne : p.1 ≠ j := fun he => hjnot (he ▸ List.mem_map.2 ⟨p, hp, rfl⟩)
      omega

/-- Stable top-k characterisation of the tensor-level `torch.topk(·, k,
dim=2)[0]` step, independently per batch, feature map and timepoint. -/
theorem topkDim2V_stable_spec (sext k : ℕ) (y : V4) (hk : k ≤ sext) (n f t : ℕ) :
    ∃ sel : List ℕ, sel.length = k ∧ sel.Nodup ∧ (∀ i ∈ sel, i < sext) ∧
      ((List.range k).map fun j => topkDim2V sext k y n f j t)
        = sel.map (fun i => y n f i t) ∧
      ∀ i ∈ sel, ∀ j, j < sext → j ∉ sel →
        y n f j t < y n f i t ∨ (y n f j t = y n f i t ∧ i < j) := by
  have hslen : ((List.range sext).map fun i => y n f i t).length = sext := by simp
  obtain ⟨sel, h1, h2, h3, h4, h5⟩ :=
    topkVals_stable_spec k ((List.range sext).map fun i => y n f i t) 0 (by omega)
  rw [hslen] at h3
  have hgd : ∀ i, i < sext → ((List.range sext).map fun i2 => y n f i2 t).getD i 0 = y n f i t := by
    intro i hi
    rw [List.getD_eq_getElem _ _ (by simpa using hi), List.getElem_map, List.getElem_range]
  have hlen4 : (topkVals k ((List.range sext).map fun i => y n f i t)).length = k := by
    rw [h4, List.length_map, h1]
  refine ⟨sel, h1, h2, h3, ?_, ?_⟩
  · calc ((List.range k).map fun j => topkDim2V sext k y n f j t)
        = topkVals k ((List.range sext).map fun i => y n f i t) :=
          range_map_getD _ 0 k hlen4
      _ = sel.map (fun i => ((List.range sext).map fun i2 => y n f i2 t).getD i 0) := h4
      _ = sel.map (fun i => y n f i t) :=
          List.map_congr_left fun i hi => hgd i (h3 i hi)
  · intro i hi j hj hjn
    have h5' := h5 i hi j (by omega) hjn
    rw [hgd i (h3 i hi), hgd j hj] at h5'
    exact h5'

/-- C3: with spatial extent at least the reduction target, the spatial
reduction's top-k step selects, independently per feature map and per
timepoint, the `reduced_spatial` positions with the largest activations
(ties broken by ascending original index), and the values it passes on
are exactly the 1×1 projection's input. -/
theorem C3_topk_spatial_selection (p : SPRW) (sext text k : ℕ) (x : V3)
    (hk : k ≤ sext) (n f t : ℕ) :
    sprV p sext text k x
      = (fun n2 s t2 =>
          conv2dV p.ca 16 1 1 0 0 k text
            (topkDim2V sext k (sprPreTopkV p sext text x)) n2 0 s t2) ∧
    ∃ sel : List ℕ, sel.length = k ∧ sel.Nodup ∧ (∀ i ∈ sel, i < sext) ∧
      ((List.range k).map fun j => topkDim2V sext k (sprPreTopkV p sext text x) n f j t)
        = sel.map (fun i => sprPreTopkV p sext text x n f i t) ∧
      ∀ i ∈ sel, ∀ j, j < sext → j ∉ sel →
        sprPreTopkV p sext text x n f j t < sprPreTopkV p sext text x n f i t ∨
          (sprPreTopkV p sext text x n f j t = sprPreTopkV p sext text x n f i t ∧ i < j) :=
  ⟨rfl, topkDim2V_stable_spec sext k (sprPreTopkV p sext text x) hk n f t⟩

/-- Witness for C3 at the end-to-end configuration's extents. -/
theorem C3_topk_spatial_selection_witness :
    sprV zeroPNetW.spr 21 5000 8 vzero3
      = (fun n2 s t2 =>
          conv2dV zeroPNetW.spr.ca 16 1 1 0 0 8 5000
            (topkDim2V 21 8 (sprPreTopkV zeroPNetW.spr 21 5000 vzero3)) n2 0 s t2) ∧
    ∃ sel : List ℕ, sel.length = 8 ∧ sel.Nodup ∧ (∀ i ∈ sel, i < 21) ∧
      ((List.range 8).map fun j =>
          topkDim2V 21 8 (sprPreTopkV zeroPNetW.spr 21 5000 vzero3) 0 0 j 0)
        = sel.map (fun i => sprPreTopkV zeroPNetW.spr 21 5000 vzero3 0 0 i 0) ∧
      ∀ i ∈ sel, ∀ j, j < 21 → j ∉ sel →
        sprPreTopkV zeroPNetW.spr 21 5000 vzero3 0 0 j 0
            < sprPreTopkV zeroPNetW.spr 21 5000 vzero3 0 0 i 0 ∨
          (sprPreTopkV zeroPNetW.spr 21 5000 vzero3 0 0 j 0
              = sprPreTopkV zeroPNetW.spr 21 5000 vzero3 0 0 i 0 ∧ i < j) :=
  C3_topk_spatial_selection zeroPNetW.spr 21 5000 8 vzero3 (by decide) 0 0 0

end RadarPulse
